import Mathlib

/-!
Shallow embedding of the OpenSSE `crypto-tk-rs` toolkit, centered on the
range-constrained PRF (RC-PRF) tree engine, together with proofs about the
embedded code.

Conventions:
* bytes are `Nat` values (always reduced mod 256 where the source works on
  `u8`); byte buffers are `List Nat`;
* a 256-bit key (`Key256`) is its list of 32 content bytes;
* the two external cryptographic crates used by the sources are abstracted by
  explicit function parameters:
  - `stream : Key → Nat → Nat` is the ChaCha20 keystream byte at a given
    offset for a given key and the fixed all-zero nonce (crate `chacha20`),
  - `blake : Key → Nat → List Nat → List Nat → List Nat → List Nat` is a
    Blake2b evaluation `blake key hashLength salt personal input`
    (crate `blake2b_simd`);
  every repository-side computation on top of them is embedded faithfully;
* fallible operations (Rust `Result`, panics, `unwrap`, out-of-bounds
  indexing, failed asserts) are modeled with `Option`, `none` being the
  failure;
* `u64` arithmetic is `Nat` arithmetic, with an explicit `% 2^64` at the
  places where the source computation can wrap in release builds, and
  wrapping `u8` subtraction where the source subtracts `u8` values.
-/

namespace CryptoTk

/-- A 256-bit key is its 32 content bytes (`Key256` in `src/key.rs`). -/
abbrev Key := List Nat

/-- Wrapping subtraction on `u8` values. -/
def u8sub (a b : Nat) : Nat := (a % 256 + 256 - b % 256) % 256

/-- Little-endian bytes of a `u64` (`u64::to_le_bytes`). -/
def le64 (n : Nat) : List Nat :=
  [n % 256, n / 2 ^ 8 % 256, n / 2 ^ 16 % 256, n / 2 ^ 24 % 256,
   n / 2 ^ 32 % 256, n / 2 ^ 40 % 256, n / 2 ^ 48 % 256, n / 2 ^ 56 % 256]

/-- Little-endian bytes of a `u16` (`u16::to_le_bytes`). -/
def le16 (n : Nat) : List Nat := [n % 256, n / 2 ^ 8 % 256]

/-! ## PRG (`src/prg.rs`)

`Prg::fill_offset_pseudo_random_bytes` seeks the ChaCha20 cipher to `offset`,
zeroes the output buffer, then applies the keystream (`out[i] ^= ks[offset+i]`).
`fill_pseudo_random_bytes` is the same at offset 0. -/

/-- `Prg::fill_offset_pseudo_random_bytes`: the output buffer is zeroized and
then xored with the keystream starting at byte `offset`. -/
def prgFillOffset (stream : Key → Nat → Nat) (k : Key) (offset : Nat)
    (output : List Nat) : List Nat :=
  (List.range output.length).map fun i => Nat.xor 0 (stream k (offset + i))

/-- `Prg::fill_pseudo_random_bytes` (no seek: offset 0). -/
def prgFill (stream : Key → Nat → Nat) (k : Key) (output : List Nat) :
    List Nat :=
  prgFillOffset stream k 0 output

/-- `KeyDerivationPrg::<Key256>::derive_key`: fill a zeroed 32-byte buffer at
offset `keyIndex * KEY_SIZE` and turn it into a key. -/
def deriveKey (stream : Key → Nat → Nat) (k : Key) (keyIndex : Nat) : Key :=
  prgFillOffset stream k (keyIndex * 32) (List.replicate 32 0)

/-- `KeyDerivationPrg::<Key256>::derive_key_pair`: fill a zeroed 64-byte
buffer at offset `keyIndex * KEY_SIZE` and split it into two keys. -/
def deriveKeyPair (stream : Key → Nat → Nat) (k : Key) (keyIndex : Nat) :
    Key × Key :=
  let buf := prgFillOffset stream k (keyIndex * 32) (List.replicate 64 0)
  (buf.take 32, buf.drop 32)

/-! ## PRF (`src/prf.rs`)

`Prf::fill_bytes` runs Blake2b in counter mode: block `i` has hash length
`min(remaining, 64)`, salt `i` (8 bytes LE), personalization = total output
length (8 bytes LE), and hashes `input`; blocks are concatenated. -/

/-- Counter-mode block loop of `Prf::fill_bytes`. The fuel equals the
remaining length, which strictly decreases by `min remaining 64 ≥ 1` per
iteration, so the fuel never runs out. -/
def prfBlocks (blake : Key → Nat → List Nat → List Nat → List Nat → List Nat)
    (k : Key) (input : List Nat) (totLen : Nat) :
    Nat → Nat → Nat → List Nat
  | 0, _, _ => []
  | fuel + 1, remaining, i =>
    if remaining = 0 then []
    else
      let outLength := min remaining 64
      blake k outLength (le64 i) (le64 totLen) input ++
        prfBlocks blake k input totLen fuel (remaining - outLength) (i + 1)

/-- `Prf::fill_bytes` with an output buffer of length `outLen`. -/
def prfFillBytes (blake : Key → Nat → List Nat → List Nat → List Nat → List Nat)
    (k : Key) (input : List Nat) (outLen : Nat) : List Nat :=
  prfBlocks blake k input outLen outLen outLen 0

/-! ## Ranges (`src/rcprf/rcprf_range.rs`)

`RcPrfRange` is an inclusive range of `u64` leaf indices. -/

/-- `RcPrfRange`: an inclusive range `[min, max]` of leaf indices. -/
structure RCPrfRange where
  min : Nat
  max : Nat
deriving DecidableEq, Repr

/-- `RcPrfRange::width`. -/
def RCPrfRange.width (r : RCPrfRange) : Nat := r.max - r.min + 1

/-- `RcPrfRange::contains_leaf`. -/
def RCPrfRange.containsLeaf (r : RCPrfRange) (leaf : Nat) : Bool :=
  r.min ≤ leaf && leaf ≤ r.max

/-- `RcPrfRange::contains_range`, specialized to inclusive-range arguments
(the only instantiation used by the RC-PRF engine). -/
def RCPrfRange.containsRange (r s : RCPrfRange) : Bool :=
  r.min ≤ s.min && s.max ≤ r.max

/-- `RcPrfRange::intersection`, specialized to inclusive-range arguments. -/
def RCPrfRange.intersection (r s : RCPrfRange) : Option RCPrfRange :=
  if s.min ≤ r.max ∧ r.min ≤ s.max then
    some ⟨Max.max s.min r.min, Min.min s.max r.max⟩
  else none

/-! ## RC-PRF tree basics (`src/rcprf/mod.rs`) -/

/-- `MAX_HEIGHT`. -/
def MAX_HEIGHT : Nat := 65

/-- `max_leaf_index`. -/
def maxLeafIndex (height : Nat) : Nat :=
  if height = 0 then 0
  else if height ≥ MAX_HEIGHT then 2 ^ 64 - 1
  else 2 ^ (height - 1) - 1

/-- `get_child_node`: the child bit is bit `height - node_depth - 2`
(wrapping `u8` subtraction, shift amount masked mod 64 as for a `u64` shift
in release builds) of the leaf index; `false` is the left child. -/
def getChildNode (height leaf nodeDepth : Nat) : Bool :=
  Nat.testBit leaf (u8sub (u8sub height nodeDepth) 2 % 64)

/-- The `1u64 << (subtree_height - 2)` computation used throughout the
engine, with wrapping `u8` subtraction and a `u64` shift that masks its
shift amount mod 64 in release builds. -/
def halfWidthOf (subtreeHeight : Nat) : Nat :=
  2 ^ (u8sub subtreeHeight 2 % 64)

/-- `ConstrainedRCPrfInnerElement`: a subtree root. The PRG is represented by
its key. -/
structure InnerElt where
  prgKey : Key
  range : RCPrfRange
  subtreeHeight : Nat
  rcprfHeight : Nat
deriving DecidableEq, Repr

/-- `ConstrainedRCPrfLeafElement`: a single leaf. The PRF is represented by
its key. -/
structure LeafElt where
  prfKey : Key
  index : Nat
  rcprfHeight : Nat
deriving DecidableEq, Repr

/-- A tree element of a constrained RC-PRF (`dyn RCPrfElement`). -/
inductive RCPrfElt
  | inner : InnerElt → RCPrfElt
  | leaf : LeafElt → RCPrfElt
deriving DecidableEq, Repr

/-- `RangePrf::range` of a tree element. -/
def RCPrfElt.range : RCPrfElt → RCPrfRange
  | .inner e => e.range
  | .leaf l => ⟨l.index, l.index⟩

/-- `TreeBasedPrf::tree_height` of a tree element. -/
def RCPrfElt.treeHeight : RCPrfElt → Nat
  | .inner e => e.rcprfHeight
  | .leaf l => l.rcprfHeight

/-- `RCPrfElement::is_leaf`. -/
def RCPrfElt.isLeaf : RCPrfElt → Bool
  | .inner _ => false
  | .leaf _ => true

/-- `RCPrfElement::subtree_height`. -/
def RCPrfElt.subtreeHeight : RCPrfElt → Nat
  | .inner e => e.subtreeHeight
  | .leaf _ => 2

/-- `ConstrainedRCPrfLeafElement::unchecked_eval`: `prf.fill_bytes(&[0u8],
output)`; the evaluation point is ignored (it is asserted to be the stored
index). -/
def leafUncheckedEval
    (blake : Key → Nat → List Nat → List Nat → List Nat → List Nat)
    (l : LeafElt) (outLen : Nat) : List Nat :=
  prfFillBytes blake l.prfKey [0] outLen

/-! ## Inner-element point evaluation (`src/rcprf/mod.rs`,
`ConstrainedRCPrfInnerElement::unchecked_eval`)

Recursion is on the subtree height, which decreases by one per step; the
structural fuel is kept equal to the element's subtree height. The child
range is `RCPrfRange::from(submin..submax)` where `submax = submin +
half_width` can wrap to 0 for the height-65 root in release builds; the
half-open-to-inclusive conversion then computes `submax - 1`, which wraps
back, so the inclusive maximum is `(submin + half_width - 1) % 2^64` in
every case (note `submin + half_width ≤ 2^64` in all reachable states). -/

/-- `ConstrainedRCPrfInnerElement::unchecked_eval`, fuel-indexed. -/
def innerUncheckedEvalAux (stream : Key → Nat → Nat)
    (blake : Key → Nat → List Nat → List Nat → List Nat → List Nat) :
    Nat → InnerElt → Nat → Nat → List Nat
  | 0, _, _, _ => []
  | fuel + 1, e, leaf, outLen =>
    let child := getChildNode e.rcprfHeight leaf
      (u8sub e.rcprfHeight e.subtreeHeight)
    let childNum : Nat := if child then 1 else 0
    let halfWidth := halfWidthOf e.subtreeHeight
    let submin := (e.range.min + childNum * halfWidth) % 2 ^ 64
    let submax := (submin + halfWidth) % 2 ^ 64
    let r : RCPrfRange := ⟨submin, (submax + (2 ^ 64 - 1)) % 2 ^ 64⟩
    let subkey := deriveKey stream e.prgKey childNum
    if e.subtreeHeight > 2 then
      innerUncheckedEvalAux stream blake fuel
        ⟨subkey, r, e.subtreeHeight - 1, e.rcprfHeight⟩ leaf outLen
    else
      leafUncheckedEval blake ⟨subkey, r.min, e.rcprfHeight⟩ outLen

/-- `ConstrainedRCPrfInnerElement::unchecked_eval`. -/
def innerUncheckedEval (stream : Key → Nat → Nat)
    (blake : Key → Nat → List Nat → List Nat → List Nat → List Nat)
    (e : InnerElt) (leaf outLen : Nat) : List Nat :=
  innerUncheckedEvalAux stream blake e.subtreeHeight e leaf outLen

/-- `UncheckedRangePrf::unchecked_eval` of a tree element. -/
def eltUncheckedEval (stream : Key → Nat → Nat)
    (blake : Key → Nat → List Nat → List Nat → List Nat → List Nat)
    (e : RCPrfElt) (x outLen : Nat) : List Nat :=
  match e with
  | .inner i => innerUncheckedEval stream blake i x outLen
  | .leaf l => leafUncheckedEval blake l outLen

/-! ## Inner-element range evaluation (`src/rcprf/mod.rs`,
`ConstrainedRCPrfInnerElement::unchecked_eval_range`)

The output buffers are modeled by the list of their lengths `lens`; the
function returns the written buffers in order. Out-of-bounds accesses to the
output slice (Rust panics) are modeled by `none`. -/

/-- `ConstrainedRCPrfInnerElement::unchecked_eval_range`, fuel-indexed. -/
def innerUncheckedEvalRangeAux (stream : Key → Nat → Nat)
    (blake : Key → Nat → List Nat → List Nat → List Nat → List Nat) :
    Nat → InnerElt → RCPrfRange → List Nat → Option (List (List Nat))
  | 0, _, _, _ => none
  | fuel + 1, e, range, lens =>
    if e.subtreeHeight > 2 then
      let halfWidth := halfWidthOf e.subtreeHeight
      let leftRange : RCPrfRange :=
        ⟨e.range.min, e.range.min + halfWidth - 1⟩
      let leftPart : Option (List (List Nat) × Nat) :=
        match leftRange.intersection range with
        | none => some ([], 0)
        | some r =>
          if r.width ≤ lens.length then
            (innerUncheckedEvalRangeAux stream blake fuel
                ⟨deriveKey stream e.prgKey 0, leftRange,
                  e.subtreeHeight - 1, e.rcprfHeight⟩ r
                (lens.take r.width)).map (fun outs => (outs, r.width))
          else none
      match leftPart with
      | none => none
      | some (leftOuts, outOffset) =>
        let rightRange : RCPrfRange :=
          ⟨e.range.min + halfWidth, e.range.max⟩
        match rightRange.intersection range with
        | none => some leftOuts
        | some r =>
          if outOffset + r.width ≤ lens.length then
            (innerUncheckedEvalRangeAux stream blake fuel
                ⟨deriveKey stream e.prgKey 1, rightRange,
                  e.subtreeHeight - 1, e.rcprfHeight⟩ r
                ((lens.drop outOffset).take r.width)).map
              (fun outs => leftOuts ++ outs)
          else none
    else
      -- leaf level: up to two leaves are written
      let firstOuts : List (List Nat) :=
        if range.containsLeaf e.range.min then
          [leafUncheckedEval blake
            ⟨deriveKey stream e.prgKey 0, range.min, e.rcprfHeight⟩
            (lens.getD 0 0)]
        else []
      let outOffset := firstOuts.length
      if range.containsLeaf e.range.max then
        if outOffset < lens.length then
          some (firstOuts ++
            [leafUncheckedEval blake
              ⟨deriveKey stream e.prgKey 1, range.max, e.rcprfHeight⟩
              (lens.getD outOffset 0)])
        else none
      else some firstOuts

/-- `ConstrainedRCPrfInnerElement::unchecked_eval_range`. -/
def innerUncheckedEvalRange (stream : Key → Nat → Nat)
    (blake : Key → Nat → List Nat → List Nat → List Nat → List Nat)
    (e : InnerElt) (range : RCPrfRange) (lens : List Nat) :
    Option (List (List Nat)) :=
  innerUncheckedEvalRangeAux stream blake e.subtreeHeight e range lens

/-! ## Constrain and merge (`src/rcprf/mod.rs`) -/

/-- First element's range minimum of a `ConstrainedRCPrf`
(`self.elements[0].range().min()`); 0 for the empty set (which the source
only ever queries behind emptiness checks). -/
def elemsMin (els : List RCPrfElt) : Nat :=
  match els with
  | [] => 0
  | e :: _ => e.range.min

/-- Last element's range maximum of a `ConstrainedRCPrf`
(`self.elements[len-1].range().max()`). -/
def elemsMax (els : List RCPrfElt) : Nat :=
  (els.getLastD (.leaf ⟨[], 0, 0⟩)).range.max

/-- `ConstrainedRCPrf::merge`: append or prepend the element lists when the
covered ranges are consecutive, fail otherwise. -/
def mergeCRCPrf (a b : List RCPrfElt) : Option (List RCPrfElt) :=
  if a.isEmpty then some b
  else if b.isEmpty then some a
  else if elemsMax a < elemsMin b then
    if elemsMin b - elemsMax a = 1 then some (a ++ b) else none
  else if elemsMin a > elemsMax b then
    if elemsMin a - elemsMax b = 1 then some (b ++ a) else none
  else none

/-- `ConstrainedRCPrfInnerElement::unchecked_constrain`, fuel-indexed.
A `ConstrainedRCPrf` is represented by its element list. -/
def innerUncheckedConstrainAux (stream : Key → Nat → Nat) :
    Nat → InnerElt → RCPrfRange → Option (List RCPrfElt)
  | 0, _, _ => none
  | fuel + 1, e, range =>
    if e.range = range then some [.inner e]
    else if e.subtreeHeight > 2 then
      let halfWidth := halfWidthOf e.subtreeHeight
      let leftRange : RCPrfRange :=
        ⟨e.range.min, e.range.min + halfWidth - 1⟩
      let rightRange : RCPrfRange :=
        ⟨e.range.min + halfWidth, e.range.max⟩
      let leftConstrained :=
        (leftRange.intersection range).map fun subrange =>
          innerUncheckedConstrainAux stream fuel
            ⟨deriveKey stream e.prgKey 0, leftRange,
              e.subtreeHeight - 1, e.rcprfHeight⟩ subrange
      let rightConstrained :=
        (rightRange.intersection range).map fun subrange =>
          innerUncheckedConstrainAux stream fuel
            ⟨deriveKey stream e.prgKey 1, rightRange,
              e.subtreeHeight - 1, e.rcprfHeight⟩ subrange
      match leftConstrained, rightConstrained with
      | none, none => none
      | none, some c => c
      | some c, none => c
      | some cl, some cr =>
        match cl, cr with
        | some l, some r => mergeCRCPrf l r
        | _, _ => none
    else
      -- height-2 element constrained to a single leaf
      let child := getChildNode e.rcprfHeight range.min
        (u8sub e.rcprfHeight e.subtreeHeight)
      let childNum : Nat := if child then 1 else 0
      some [.leaf ⟨deriveKey stream e.prgKey childNum, range.min,
        e.rcprfHeight⟩]

/-- `ConstrainedRCPrfInnerElement::unchecked_constrain`. -/
def innerUncheckedConstrain (stream : Key → Nat → Nat) (e : InnerElt)
    (range : RCPrfRange) : Option (List RCPrfElt) :=
  innerUncheckedConstrainAux stream e.subtreeHeight e range

/-! ## `RCPrf` and `ConstrainedRCPrf` public operations
(`src/rcprf/mod.rs`) -/

/-- `RCPrf`: an unconstrained RC-PRF wraps a single root inner element. -/
structure RCPrf where
  root : InnerElt
deriving DecidableEq, Repr

/-- `RCPrf::new` (keyed variant: the source draws the root key at random;
the key is a parameter here): fails when `height > MAX_HEIGHT`. -/
def rcprfNew (k : Key) (height : Nat) : Option RCPrf :=
  if height > MAX_HEIGHT then none
  else some ⟨⟨k, ⟨0, maxLeafIndex height⟩, height, height⟩⟩

/-- `RangePrf::eval` for `RCPrf`: range check, then the root element's
unchecked evaluation. -/
def rcprfEval (stream : Key → Nat → Nat)
    (blake : Key → Nat → List Nat → List Nat → List Nat → List Nat)
    (t : RCPrf) (x outLen : Nat) : Option (List Nat) :=
  if t.root.range.containsLeaf x then
    some (innerUncheckedEval stream blake t.root x outLen)
  else none

/-- `RangePrf::eval_range` for `RCPrf`: range and width checks, then the
root element's unchecked range evaluation. -/
def rcprfEvalRange (stream : Key → Nat → Nat)
    (blake : Key → Nat → List Nat → List Nat → List Nat → List Nat)
    (t : RCPrf) (range : RCPrfRange) (lens : List Nat) :
    Option (List (List Nat)) :=
  if ¬ t.root.range.containsRange range then none
  else if range.width ≠ lens.length then none
  else innerUncheckedEvalRange stream blake t.root range lens

/-- `RangePrf::constrain` for `RCPrf`. -/
def rcprfConstrain (stream : Key → Nat → Nat) (t : RCPrf)
    (range : RCPrfRange) : Option (List RCPrfElt) :=
  if ¬ t.root.range.containsRange range then none
  else innerUncheckedConstrain stream t.root range

/-- `RangePrf::range` for `ConstrainedRCPrf` (indexes `elements[0]` and the
last element; panics on an empty element list). -/
def crcprfRange (els : List RCPrfElt) : Option RCPrfRange :=
  match els with
  | [] => none
  | _ => some ⟨elemsMin els, elemsMax els⟩

/-- `ConstrainedRCPrf::unchecked_eval`: find the element whose range
contains `x` (`unwrap` panics when there is none) and evaluate it. -/
def crcprfUncheckedEval (stream : Key → Nat → Nat)
    (blake : Key → Nat → List Nat → List Nat → List Nat → List Nat)
    (els : List RCPrfElt) (x outLen : Nat) : Option (List Nat) :=
  (els.find? fun e => e.range.containsLeaf x).map fun e =>
    eltUncheckedEval stream blake e x outLen

/-- `RangePrf::eval` for `ConstrainedRCPrf`. -/
def crcprfEval (stream : Key → Nat → Nat)
    (blake : Key → Nat → List Nat → List Nat → List Nat → List Nat)
    (els : List RCPrfElt) (x outLen : Nat) : Option (List Nat) :=
  match crcprfRange els with
  | none => none
  | some r =>
    if r.containsLeaf x then crcprfUncheckedEval stream blake els x outLen
    else none

/-! ## Node splitting and the sequential iterator
(`src/rcprf/inner_element.rs`, `src/rcprf/leaf_element.rs`,
`src/rcprf/iterator.rs`)

`split_node` derives the two child keys with `derive_key_pair(0)` and, for
subtree height > 2, builds the child ranges from *half-open* ranges:
`range_left = from(min..min+half_width)` and
`range_right = from(min+half_width..max)`, where
`half_width = self.range().width() / 2` and `from(a..b)` is the inclusive
range `[a, b-1]` (after an emptiness assert). Asserts that fail are `none`.
Splitting a leaf panics. -/

/-- `RcPrfElement::split_node`. -/
def splitNode (stream : Key → Nat → Nat) (e : RCPrfElt) :
    Option (RCPrfElt × RCPrfElt) :=
  match e with
  | .leaf _ => none
  | .inner i =>
    let kp := deriveKeyPair stream i.prgKey 0
    if i.subtreeHeight > 2 then
      let width := (i.range.max - i.range.min + 1) % 2 ^ 64
      let halfWidth := width / 2
      -- RcPrfRange::from(min..min + half_width)
      let leftEnd := (i.range.min + halfWidth) % 2 ^ 64
      if leftEnd = i.range.min then none
      else
        let leftMax := (leftEnd + (2 ^ 64 - 1)) % 2 ^ 64
        if leftMax < i.range.min then none
        else
          -- RcPrfRange::from(min + half_width..max): note the half-open
          -- upper end, so the right child's maximum is `max - 1`
          if i.range.max = leftEnd then none
          else
            let rightMax := (i.range.max + (2 ^ 64 - 1)) % 2 ^ 64
            if rightMax < leftEnd then none
            else
              some (.inner ⟨kp.1, ⟨i.range.min, leftMax⟩,
                      i.subtreeHeight - 1, i.rcprfHeight⟩,
                    .inner ⟨kp.2, ⟨leftEnd, rightMax⟩,
                      i.subtreeHeight - 1, i.rcprfHeight⟩)
    else
      some (.leaf ⟨kp.1, i.range.min, i.rcprfHeight⟩,
            .leaf ⟨kp.2, i.range.max, i.rcprfHeight⟩)

/-- The state of `RcPrfIterator`: the double-ended node queue (front at the
list head) and the output size. -/
structure RcPrfIterator where
  nodeQueue : List RCPrfElt
  outputSize : Nat
deriving Repr

/-- Modelled from the spec: the constrained RC-PRF's
`into_index_value_iter`/`into_value_iter` constructor is not under `src/`
(only its callers are); per §4.6 of the spec it builds the iterator queue
with one entry per element of the constrained set, in order. -/
def intoValueIter (els : List RCPrfElt) (outputSize : Nat) : RcPrfIterator :=
  ⟨els, outputSize⟩

/-- Inner loop of `RcPrfIterator::next`: keep splitting the current element,
pushing the right child back to the front of the queue, until a leaf is
reached; emit `(range().min(), unchecked_eval)`. Each split decreases the
subtree height, so that height is a sufficient fuel. -/
def iterNextLoop (stream : Key → Nat → Nat)
    (blake : Key → Nat → List Nat → List Nat → List Nat → List Nat)
    (outputSize : Nat) :
    Nat → RCPrfElt → List RCPrfElt → Option ((Nat × List Nat) × List RCPrfElt)
  | 0, _, _ => none
  | fuel + 1, elt, queue =>
    if elt.isLeaf then
      some ((elt.range.min, eltUncheckedEval stream blake elt elt.range.min
        outputSize), queue)
    else
      match splitNode stream elt with
      | none => none
      | some (left, right) =>
        iterNextLoop stream blake outputSize fuel left (right :: queue)

/-- `RcPrfIterator::next`. -/
def iterNext (stream : Key → Nat → Nat)
    (blake : Key → Nat → List Nat → List Nat → List Nat → List Nat)
    (it : RcPrfIterator) : Option ((Nat × List Nat) × RcPrfIterator) :=
  match it.nodeQueue with
  | [] => none
  | elt :: rest =>
    (iterNextLoop stream blake it.outputSize (elt.subtreeHeight + 1) elt
      rest).map fun (out, queue) => (out, ⟨queue, it.outputSize⟩)

/-- Inner loop of `RcPrfIterator::next_back`: symmetric to `next`, pushing
the left child to the back of the queue and continuing with the right one;
a leaf emits `(range().max(), unchecked_eval)`. -/
def iterNextBackLoop (stream : Key → Nat → Nat)
    (blake : Key → Nat → List Nat → List Nat → List Nat → List Nat)
    (outputSize : Nat) :
    Nat → RCPrfElt → List RCPrfElt → Option ((Nat × List Nat) × List RCPrfElt)
  | 0, _, _ => none
  | fuel + 1, elt, queue =>
    if elt.isLeaf then
      some ((elt.range.max, eltUncheckedEval stream blake elt elt.range.max
        outputSize), queue)
    else
      match splitNode stream elt with
      | none => none
      | some (left, right) =>
        iterNextBackLoop stream blake outputSize fuel right (queue ++ [left])

/-- `RcPrfIterator::next_back` (pops the back of the queue). -/
def iterNextBack (stream : Key → Nat → Nat)
    (blake : Key → Nat → List Nat → List Nat → List Nat → List Nat)
    (it : RcPrfIterator) : Option ((Nat × List Nat) × RcPrfIterator) :=
  match it.nodeQueue.getLast? with
  | none => none
  | some elt =>
    (iterNextBackLoop stream blake it.outputSize (elt.subtreeHeight + 1) elt
      (it.nodeQueue.dropLast)).map
      fun (out, queue) => (out, ⟨queue, it.outputSize⟩)

/-- Repeatedly call `iterNext`, collecting the emitted `(index, value)`
pairs; stops early if a call fails or the queue empties. -/
def iterTake (stream : Key → Nat → Nat)
    (blake : Key → Nat → List Nat → List Nat → List Nat → List Nat) :
    Nat → RcPrfIterator → List (Nat × List Nat)
  | 0, _ => []
  | n + 1, it =>
    match iterNext stream blake it with
    | none => []
    | some (out, it2) => out :: iterTake stream blake n it2

/-! ## Cleartext serialization (`src/serialization/*.rs`,
`src/rcprf/inner_element.rs`) -/

/-- `SerializationTag` numeric values (`src/serialization/tags.rs`). -/
def tagPrf : Nat := 1
/-- `SerializationTag::Prg as u16`. -/
def tagPrg : Nat := 2
/-- `SerializationTag::KeyDerivationPrg as u16`. -/
def tagKeyDerivationPrg : Nat := 3
/-- `SerializationTag::RcPrf as u16`. -/
def tagRcPrf : Nat := 4
/-- `SerializationTag::ConstrainedRcPrf as u16`. -/
def tagConstrainedRcPrf : Nat := 5
/-- `SerializationTag::ConstrainedRcPrfLeafElement as u16`. -/
def tagConstrainedRcPrfLeafElement : Nat := 6
/-- `SerializationTag::ConstrainedRcPrfInnerElement as u16`. -/
def tagConstrainedRcPrfInnerElement : Nat := 7

/-- Modelled from the spec: `Key256`'s `SerializableCleartextContent`
implementation is not under `src/` (the `Prf`/`Prg` implementations delegate
to it); per §4.4/§4.7 of the spec the cleartext content of a `Key256` is its
raw 32 bytes, and its content byte size is 32. -/
def key256SerializeContent (k : Key) : List Nat := k

/-- Modelled from the spec: `Key256`'s
`serialization_content_byte_size` is 32 (see `key256SerializeContent`). -/
def key256SerializationContentByteSize : Nat := 32

/-- `Prg::serialize_content` / `KeyDerivationPrg::serialize_content`
(`src/prg.rs`): delegate to the key. -/
def prgSerializeContent (k : Key) : List Nat := key256SerializeContent k

/-- `Prf::serialize_content` (`src/prf.rs`): delegates to the key. -/
def prfSerializeContent (k : Key) : List Nat := key256SerializeContent k

/-- `Prf::serialization_content_byte_size` (`src/prf.rs`). -/
def prfSerializationContentByteSize : Nat := key256SerializationContentByteSize

/-- `RcPrfRange::serialize_content` (`src/rcprf/rcprf_range.rs`):
`min` then `max`, 8 bytes little-endian each. -/
def rangeSerializeContent (r : RCPrfRange) : List Nat :=
  le64 r.min ++ le64 r.max

/-- `ConstrainedRcPrfInnerElement::serialize_content`
(`src/rcprf/inner_element.rs`): global height (1 byte), subtree height
(1 byte), range content, then the PRG content (the raw key, written with
`serialize_content`, i.e. without a tag). -/
def innerEltSerializeContent (e : InnerElt) : List Nat :=
  [e.rcprfHeight % 256] ++ [e.subtreeHeight % 256] ++
    rangeSerializeContent e.range ++ prgSerializeContent e.prgKey

/-- The inner-element content layout claimed by the spec (§4.7): the KDPRG
part is a full tagged serialization, `tag=3` (2 bytes little-endian)
followed by the 32-byte key. Stated from the spec's words for comparison
with `innerEltSerializeContent`, which is translated from the source. -/
def innerEltClaimedLayout (e : InnerElt) : List Nat :=
  [e.rcprfHeight % 256] ++ [e.subtreeHeight % 256] ++
    le64 e.range.min ++ le64 e.range.max ++
    le16 tagKeyDerivationPrg ++ e.prgKey

/-- `SerializableCleartext::cleartext_serialization_length`
(`src/serialization/cleartext_serialization.rs`): returns
`serialization_content_byte_size()` only — the 2 tag bytes that
`serialize_cleartext` writes in addition are not counted. -/
def cleartextSerializationLength (contentByteSize : Nat) : Nat :=
  contentByteSize

/-- `write_all` on a fixed-size `&mut [u8]` slice: succeeds (advancing the
position) iff the data fits in the remaining space, else the write fails
with a `WriteZero` error. -/
def sliceWriteAll (capacity pos : Nat) (data : List Nat) : Option Nat :=
  if pos + data.length ≤ capacity then some (pos + data.length) else none

/-- `SerializableCleartext::serialize_cleartext` into a fixed-capacity byte
slice: write the 2 tag bytes, then the content bytes. Returns the final
position on success. -/
def serializeCleartextIntoSlice (capacity : Nat) (tagValue : Nat)
    (content : List Nat) : Option Nat :=
  match sliceWriteAll capacity 0 (le16 tagValue) with
  | none => none
  | some pos => sliceWriteAll capacity pos content

/-! ## AEAD cipher (`src/aead_cipher.rs`)

The external `chacha20poly1305` crate is abstracted by two parameters:
`cpEnc key nonce12 msg = (body, tag)` (in-place detached encryption) and
`cpDec key nonce12 body tag = some msg` or `none`
(in-place detached decryption with tag verification). -/

/-- `AeadCipher::encrypt` with the random 16-byte nonce `iv` passed as a
parameter and a ciphertext buffer `ctBuf` (whose bytes past the written
region are left untouched). The per-message key is
`KeyDerivationPrf::<Key256>::derive_key(&iv) = Prf::fill_bytes(iv, 32)`. -/
def aeadEncrypt (blake : Key → Nat → List Nat → List Nat → List Nat → List Nat)
    (cpEnc : Key → List Nat → List Nat → List Nat × List Nat)
    (k : Key) (plaintext : List Nat) (iv : List Nat) (ctBuf : List Nat) :
    Option (List Nat) :=
  if ctBuf.length < plaintext.length + 32 then none
  else
    let encryptionKey := prfFillBytes blake k iv 32
    let bodyTag := cpEnc encryptionKey (iv.take 12) plaintext
    some (iv ++ bodyTag.1 ++ bodyTag.2 ++
      ctBuf.drop (plaintext.length + 32))

/-- `AeadCipher::decrypt` with a plaintext buffer `ptBuf` (bytes past the
written region are left untouched). -/
def aeadDecrypt (blake : Key → Nat → List Nat → List Nat → List Nat → List Nat)
    (cpDec : Key → List Nat → List Nat → List Nat → Option (List Nat))
    (k : Key) (ciphertext : List Nat) (ptBuf : List Nat) :
    Option (List Nat) :=
  let l := ciphertext.length
  if l < 32 then none
  else if l > ptBuf.length + 32 then none
  else
    let realPlaintextLength := l - 32
    let iv := ciphertext.take 16
    let tag := ciphertext.drop (l - 16)
    let content := (ciphertext.drop 16).take (l - 32)
    let encryptionKey := prfFillBytes blake k iv 32
    match cpDec encryptionKey (iv.take 12) content tag with
    | none => none
    | some pt => some (pt ++ ptBuf.drop realPlaintextLength)

/-- `CryptoWrapper::wrap` (`src/serialization/wrapper.rs`): allocate a
cleartext buffer of `cleartext_serialization_length()` bytes, serialize the
object into it (tag then content), then AEAD-encrypt the buffer. The
serialized bytes would be `le16 tag ++ content`; the encryption is only
reached if the serialization into the fixed-size buffer succeeds. -/
def cryptoWrapperWrap
    (blake : Key → Nat → List Nat → List Nat → List Nat → List Nat)
    (cpEnc : Key → List Nat → List Nat → List Nat × List Nat)
    (wrapKey : Key) (iv : List Nat) (tagValue : Nat)
    (contentByteSize : Nat) (content : List Nat) : Option (List Nat) :=
  let plainLength := cleartextSerializationLength contentByteSize
  match serializeCleartextIntoSlice plainLength tagValue content with
  | none => none
  | some _ =>
    aeadEncrypt blake cpEnc wrapKey (le16 tagValue ++ content) iv
      (List.replicate (plainLength + 32) 0)

/-- `CryptoWrapper::wrap` applied to a `Prf` object (tag 1, content = the
32-byte key). -/
def cryptoWrapperWrapPrf
    (blake : Key → Nat → List Nat → List Nat → List Nat → List Nat)
    (cpEnc : Key → List Nat → List Nat → List Nat × List Nat)
    (wrapKey : Key) (iv : List Nat) (prfKey : Key) : Option (List Nat) :=
  cryptoWrapperWrap blake cpEnc wrapKey iv tagPrf
    prfSerializationContentByteSize (prfSerializeContent prfKey)

/-! ## Validity invariant and proof helpers -/

/-- Well-formedness of an inner element, as established by the engine for
every inner element it creates when the tree height is at least 2: the
subtree height is between 2 and the global height (at most 65), the range is
a complete aligned subtree of width `2^(subtree_height-1)`, and leaf indices
fit in a `u64`. -/
structure ValidInner (e : InnerElt) : Prop where
  two_le : 2 ≤ e.subtreeHeight
  le_h : e.subtreeHeight ≤ e.rcprfHeight
  h_le : e.rcprfHeight ≤ 65
  aligned : 2 ^ (e.subtreeHeight - 1) ∣ e.range.min
  max_eq : e.range.max = e.range.min + 2 ^ (e.subtreeHeight - 1) - 1
  max_lt : e.range.max < 2 ^ 64

/-- The key of the leaf at offset `off` inside a subtree of height `s` whose
root PRG key is `k`: descend left (index 0) or right (index 1) according to
the comparison of the offset with the half-width. Proof-side specification
used to characterize the evaluation functions. -/
def subtreeLeafKey (stream : Key → Nat → Nat) : Nat → Key → Nat → Key
  | 0, k, _ => k
  | 1, k, _ => k
  | 2, k, off => deriveKey stream k off
  | s + 3, k, off =>
    subtreeLeafKey stream (s + 2)
      (deriveKey stream k (if 2 ^ (s + 1) ≤ off then 1 else 0))
      (off % 2 ^ (s + 1))

/-- The left child element derived in the evaluation recursions. -/
def leftChildOf (stream : Key → Nat → Nat) (e : InnerElt) : InnerElt :=
  ⟨deriveKey stream e.prgKey 0,
    ⟨e.range.min, e.range.min + 2 ^ (e.subtreeHeight - 2) - 1⟩,
    e.subtreeHeight - 1, e.rcprfHeight⟩

/-- The right child element derived in the evaluation recursions. -/
def rightChildOf (stream : Key → Nat → Nat) (e : InnerElt) : InnerElt :=
  ⟨deriveKey stream e.prgKey 1,
    ⟨e.range.min + 2 ^ (e.subtreeHeight - 2), e.range.max⟩,
    e.subtreeHeight - 1, e.rcprfHeight⟩

/-- The invariant maintained by `ConstrainedRCPrf` on its element list:
non-empty, exactly covering the constrained range, contiguous (each
element's minimum is the previous element's maximum plus one, which also
makes the ranges pairwise disjoint and sorted by increasing minimum), with
every element carrying the constrained RC-PRF's tree height. -/
structure ElemSetInv (hH : Nat) (r : RCPrfRange) (els : List RCPrfElt) :
    Prop where
  nonempty : els ≠ []
  min_eq : elemsMin els = r.min
  max_eq : elemsMax els = r.max
  chain : els.Chain' (fun x y => y.range.min = x.range.max + 1)
  heights : ∀ el ∈ els, el.treeHeight = hH
  bounds : ∀ el ∈ els, r.min ≤ el.range.min ∧ el.range.max ≤ r.max ∧
    el.range.min ≤ el.range.max

/-- Concrete ChaCha20 keystream stand-in used for the executable
instantiations: byte `n` of the stream keyed by `k` mixes the key's first
byte with the position. -/
def streamW : Key → Nat → Nat :=
  fun k n => (k.headD 0 + 2 * n + 1) % 256

/-- Concrete Blake2b stand-in used for the executable instantiations. -/
def blakeW : Key → Nat → List Nat → List Nat → List Nat → List Nat :=
  fun k outLen salt personal input =>
    List.replicate outLen
      ((k.headD 0 + salt.headD 0 + personal.headD 0 + input.headD 0 + outLen)
        % 256)

/-- Concrete 32-byte key used for the executable instantiations. -/
def keyW : Key := List.replicate 32 0

/-- Concrete detached AEAD encryption stand-in (identity body, constant
tag) used for the executable instantiations. -/
def cpEncW : Key → List Nat → List Nat → List Nat × List Nat :=
  fun _ _ msg => (msg, List.replicate 16 0)

/-- Concrete detached AEAD decryption stand-in matching `cpEncW`. -/
def cpDecW : Key → List Nat → List Nat → List Nat → Option (List Nat) :=
  fun _ _ body tag =>
    if tag = List.replicate 16 0 then some body else none

/-- Repeatedly call `iterNextBack`, collecting the emitted
`(index, value)` pairs; stops early if a call fails or the queue
empties. -/
def iterTakeBack (stream : Key → Nat → Nat)
    (blake : Key → Nat → List Nat → List Nat → List Nat → List Nat) :
    Nat → RcPrfIterator → List (Nat × List Nat)
  | 0, _ => []
  | n + 1, it =>
    match iterNextBack stream blake it with
    | none => []
    | some (out, it2) => out :: iterTakeBack stream blake n it2

theorem u8sub_eq {a b : Nat} (ha : a ≤ 255) (hba : b ≤ a) :
    u8sub a b = a - b := by
  unfold u8sub
  rw [Nat.mod_eq_of_lt (by omega : a < 256), Nat.mod_eq_of_lt (by omega : b < 256)]
  have h1 : a + 256 - b = 256 + (a - b) := by omega
  rw [h1, Nat.add_mod_left, Nat.mod_eq_of_lt (by omega)]

theorem halfWidthOf_eq {s : Nat} (h2 : 2 ≤ s) (h65 : s ≤ 65) :
    halfWidthOf s = 2 ^ (s - 2) := by
  unfold halfWidthOf
  rw [u8sub_eq (by omega) (by omega), Nat.mod_eq_of_lt (by omega)]

theorem getChildNode_eq {h s x : Nat} (h2 : 2 ≤ s) (hsh : s ≤ h)
    (h65 : h ≤ 65) :
    getChildNode h x (u8sub h s) = Nat.testBit x (s - 2) := by
  unfold getChildNode
  have e1 : u8sub h s = h - s := u8sub_eq (by omega) hsh
  rw [e1]
  have e2 : u8sub h (h - s) = h - (h - s) := u8sub_eq (by omega) (by omega)
  have e3 : h - (h - s) = s := by omega
  rw [e2, e3]
  have e4 : u8sub s 2 = s - 2 := u8sub_eq (by omega) h2
  rw [e4, Nat.mod_eq_of_lt (by omega)]

theorem testBit_aligned_add {s m o : Nat} (h2 : 2 ≤ s)
    (hdvd : 2 ^ (s - 1) ∣ m) (hoff : o < 2 ^ (s - 1)) :
    Nat.testBit (m + o) (s - 2) = decide (2 ^ (s - 2) ≤ o) := by
  obtain ⟨c, rfl⟩ := hdvd
  have hs1 : s - 1 = (s - 2) + 1 := by omega
  have hpow : (2 : Nat) ^ (s - 1) = 2 ^ (s - 2) * 2 := by
    rw [hs1, pow_succ]
  have hpos : 0 < (2 : Nat) ^ (s - 2) := Nat.pos_pow_of_pos _ (by omega)
  rw [Nat.testBit_to_div_mod]
  have hdvd2 : 2 ^ (s - 2) ∣ 2 ^ (s - 1) * c := by
    exact Dvd.dvd.mul_right (pow_dvd_pow 2 (by omega)) c
  rw [Nat.add_div_of_dvd_right hdvd2]
  have hq : 2 ^ (s - 1) * c / 2 ^ (s - 2) = 2 * c := by
    rw [hpow, Nat.mul_assoc, Nat.mul_div_cancel_left _ hpos]
  rw [hq, Nat.mul_add_mod]
  have hqlt : o / 2 ^ (s - 2) < 2 := by
    rw [Nat.div_lt_iff_lt_mul hpos]
    omega
  rw [Nat.mod_eq_of_lt hqlt, decide_eq_decide]
  have hone : 1 ≤ o / 2 ^ (s - 2) ↔ 2 ^ (s - 2) ≤ o :=
    Nat.one_le_div_iff hpos
  omega

/-- Predecessor of a value at most `2^64`, computed the way the engine does
in release builds (`submax = (submin + half) mod 2^64` followed by the
half-open conversion `submax - 1` wrapping at `u64`). -/
theorem u64_pred_mod {a : Nat} (h1 : 1 ≤ a) (h2 : a ≤ 2 ^ 64) :
    (a % 2 ^ 64 + (2 ^ 64 - 1)) % 2 ^ 64 = a - 1 := by
  rcases Nat.lt_or_ge a (2 ^ 64) with h | h
  · rw [Nat.mod_eq_of_lt h]
    have hsplit : a + (2 ^ 64 - 1) = 2 ^ 64 + (a - 1) := by omega
    rw [hsplit, Nat.add_mod_left, Nat.mod_eq_of_lt (by omega)]
  · have ha : a = 2 ^ 64 := by omega
    subst ha
    rw [Nat.mod_self, Nat.zero_add, Nat.mod_eq_of_lt (by omega)]

/-- Unfolding of `innerUncheckedEvalAux` at a positive fuel. -/
theorem innerUncheckedEvalAux_succ (stream : Key → Nat → Nat)
    (blake : Key → Nat → List Nat → List Nat → List Nat → List Nat)
    (n : Nat) (e : InnerElt) (x L : Nat) :
    innerUncheckedEvalAux stream blake (n + 1) e x L =
      (let child := getChildNode e.rcprfHeight x
        (u8sub e.rcprfHeight e.subtreeHeight)
       let childNum : Nat := if child then 1 else 0
       let halfWidth := halfWidthOf e.subtreeHeight
       let submin := (e.range.min + childNum * halfWidth) % 2 ^ 64
       let submax := (submin + halfWidth) % 2 ^ 64
       let r : RCPrfRange := ⟨submin, (submax + (2 ^ 64 - 1)) % 2 ^ 64⟩
       let subkey := deriveKey stream e.prgKey childNum
       if e.subtreeHeight > 2 then
         innerUncheckedEvalAux stream blake n
           ⟨subkey, r, e.subtreeHeight - 1, e.rcprfHeight⟩ x L
       else
         leafUncheckedEval blake ⟨subkey, r.min, e.rcprfHeight⟩ L) := rfl

/-- One step of `ConstrainedRCPrfInnerElement::unchecked_eval` on a valid
inner element of subtree height `m + 3 > 2`: descend into the child selected
by the offset of `x` within the subtree. -/
theorem innerUncheckedEval_step (stream : Key → Nat → Nat)
    (blake : Key → Nat → List Nat → List Nat → List Nat → List Nat)
    (kk : Key) (mn mx m H L x : Nat)
    (hH : H ≤ 65) (hsh : m + 3 ≤ H)
    (hdvd : 2 ^ (m + 2) ∣ mn) (hmax : mx = mn + 2 ^ (m + 2) - 1)
    (hlt : mx < 2 ^ 64) (hx1 : mn ≤ x) (hx2 : x ≤ mx) :
    innerUncheckedEval stream blake ⟨kk, ⟨mn, mx⟩, m + 3, H⟩ x L =
      (if 2 ^ (m + 1) ≤ x - mn then
        innerUncheckedEval stream blake
          ⟨deriveKey stream kk 1, ⟨mn + 2 ^ (m + 1), mx⟩, m + 2, H⟩ x L
      else
        innerUncheckedEval stream blake
          ⟨deriveKey stream kk 0, ⟨mn, mn + 2 ^ (m + 1) - 1⟩, m + 2, H⟩
          x L) := by
  have hpowsplit : (2 : Nat) ^ (m + 2) = 2 ^ (m + 1) * 2 := by
    rw [← pow_succ]
  have hp0 : 0 < (2 : Nat) ^ (m + 1) := Nat.pos_pow_of_pos _ (by omega)
  have hbit : getChildNode H x (u8sub H (m + 3)) =
      decide (2 ^ (m + 1) ≤ x - mn) := by
    rw [getChildNode_eq (by omega) hsh hH]
    have hofflt : x - mn < 2 ^ (m + 3 - 1) := by
      have : (2:Nat) ^ (m + 3 - 1) = 2 ^ (m + 2) := by norm_num
      rw [this]; omega
    have := testBit_aligned_add (s := m + 3) (m := mn) (o := x - mn)
      (by omega) (by simpa using hdvd) hofflt
    have hxx : mn + (x - mn) = x := by omega
    rw [hxx] at this
    simpa using this
  have hhw : halfWidthOf (m + 3) = 2 ^ (m + 1) := by
    have := halfWidthOf_eq (s := m + 3) (by omega) (by omega)
    simpa using this
  have hb0 : mn < 2 ^ 64 := by omega
  have hb1 : mn + 2 ^ (m + 1) < 2 ^ 64 := by omega
  show innerUncheckedEvalAux stream blake ((m + 2) + 1) _ x L = _
  rw [innerUncheckedEvalAux_succ]
  dsimp only
  simp only [hbit, hhw]
  rw [if_pos (show (2:Nat) < m + 3 by omega)]
  simp only [decide_eq_true_eq]
  rcases Nat.lt_or_ge (x - mn) (2 ^ (m + 1)) with hoff | hoff
  · rw [if_neg (show ¬ 2 ^ (m + 1) ≤ x - mn by omega),
      if_neg (show ¬ 2 ^ (m + 1) ≤ x - mn by omega)]
    have e1 : (mn + 0 * 2 ^ (m + 1)) % 2 ^ 64 = mn := by
      rw [Nat.zero_mul, Nat.add_zero]
      exact Nat.mod_eq_of_lt hb0
    simp only [e1]
    rw [u64_pred_mod (by omega) (by omega)]
    rfl
  · rw [if_pos hoff, if_pos hoff]
    have e1 : (mn + 1 * 2 ^ (m + 1)) % 2 ^ 64 = mn + 2 ^ (m + 1) := by
      rw [Nat.one_mul]
      exact Nat.mod_eq_of_lt hb1
    simp only [e1]
    rw [u64_pred_mod (by omega) (by omega)]
    have e4 : mn + 2 ^ (m + 1) + 2 ^ (m + 1) - 1 = mx := by omega
    rw [e4]
    rfl

/-- `ConstrainedRCPrfInnerElement::unchecked_eval` at subtree height 2: the
element covers two leaves `[mn, mn+1]` and the output is the child PRF of
index `x - mn` applied to `[0]`. -/
theorem innerUncheckedEval_leaf_eq (stream : Key → Nat → Nat)
    (blake : Key → Nat → List Nat → List Nat → List Nat → List Nat)
    (kk : Key) (mn mx H L x : Nat)
    (hH : H ≤ 65) (hsh : 2 ≤ H)
    (hdvd : 2 ∣ mn) (hmax : mx = mn + 1)
    (hlt : mx < 2 ^ 64) (hx1 : mn ≤ x) (hx2 : x ≤ mx) :
    innerUncheckedEval stream blake ⟨kk, ⟨mn, mx⟩, 2, H⟩ x L =
      prfFillBytes blake (deriveKey stream kk (x - mn)) [0] L := by
  have hbit : getChildNode H x (u8sub H 2) =
      decide (1 ≤ x - mn) := by
    rw [getChildNode_eq (by omega) hsh hH]
    have := testBit_aligned_add (s := 2) (m := mn) (o := x - mn)
      (by omega) (by simpa using hdvd) (by omega)
    have hxx : mn + (x - mn) = x := by omega
    rw [hxx] at this
    simpa using this
  have hhw : halfWidthOf 2 = 1 := by decide
  show innerUncheckedEvalAux stream blake (1 + 1) _ x L = _
  rw [innerUncheckedEvalAux_succ]
  simp only [hbit, hhw]
  rw [if_neg (by omega : ¬ (2 : Nat) > 2)]
  unfold leafUncheckedEval
  rcases Nat.lt_or_ge (x - mn) 1 with hoff | hoff
  · simp only [decide_eq_true_eq]
    rw [if_neg (by omega)]
    have hx0 : x - mn = 0 := by omega
    rw [hx0]
  · simp only [decide_eq_true_eq]
    rw [if_pos hoff]
    have hx1' : x - mn = 1 := by omega
    rw [hx1']

set_option maxHeartbeats 1000000

/-- Characterization of `ConstrainedRCPrfInnerElement::unchecked_eval` on a
valid subtree: the output is the PRF of the leaf key reached by the
descent. -/
theorem innerUncheckedEval_spec (stream : Key → Nat → Nat)
    (blake : Key → Nat → List Nat → List Nat → List Nat → List Nat) :
    ∀ (s : Nat) (kk : Key) (mn mx H : Nat), 2 ≤ s → s ≤ H → H ≤ 65 →
    2 ^ (s - 1) ∣ mn → mx = mn + 2 ^ (s - 1) - 1 → mx < 2 ^ 64 →
    ∀ x L, mn ≤ x → x ≤ mx →
    innerUncheckedEval stream blake ⟨kk, ⟨mn, mx⟩, s, H⟩ x L =
      prfFillBytes blake (subtreeLeafKey stream s kk (x - mn)) [0] L := by
  intro s
  induction s using Nat.strong_induction_on with
  | _ s ih =>
    intro kk mn mx H h2 hsh hH hdvd hmax hlt x L hx1 hx2
    match s, h2 with
    | 2, _ =>
      rw [innerUncheckedEval_leaf_eq stream blake kk mn mx H L x hH hsh
        (by simpa using hdvd) (by simpa using hmax) hlt hx1 hx2]
      rfl
    | (m + 3), _ =>
      have hdvd2 : 2 ^ (m + 2) ∣ mn := by simpa using hdvd
      have hmax2 : mx = mn + 2 ^ (m + 2) - 1 := by simpa using hmax
      have hpowsplit : (2 : Nat) ^ (m + 2) = 2 ^ (m + 1) * 2 := by
        rw [← pow_succ]
      have hp0 : 0 < (2 : Nat) ^ (m + 1) := Nat.pos_pow_of_pos _ (by omega)
      rw [innerUncheckedEval_step stream blake kk mn mx m H L x hH
        (by omega) hdvd2 hmax2 hlt hx1 hx2]
      have hkey : subtreeLeafKey stream (m + 3) kk (x - mn) =
          subtreeLeafKey stream (m + 2)
            (deriveKey stream kk (if 2 ^ (m + 1) ≤ x - mn then 1 else 0))
            ((x - mn) % 2 ^ (m + 1)) := rfl
      have hdvd1 : 2 ^ (m + 1) ∣ mn :=
        dvd_trans (pow_dvd_pow 2 (by omega)) hdvd2
      rcases Nat.lt_or_ge (x - mn) (2 ^ (m + 1)) with hoff | hoff
      · rw [if_neg (by omega)]
        rw [ih (m + 2) (by omega) (deriveKey stream kk 0) mn
          (mn + 2 ^ (m + 1) - 1) H (by omega) (by omega) hH hdvd1
          rfl (by omega) x L hx1 (by omega)]
        rw [hkey, if_neg (by omega), Nat.mod_eq_of_lt hoff]
      · rw [if_pos hoff]
        have hdvdr : 2 ^ (m + 1) ∣ mn + 2 ^ (m + 1) := dvd_add hdvd1 dvd_rfl
        rw [ih (m + 2) (by omega) (deriveKey stream kk 1)
          (mn + 2 ^ (m + 1)) mx H (by omega) (by omega) hH hdvdr
          (show mx = mn + 2 ^ (m + 1) + 2 ^ (m + 1) - 1 by omega)
          hlt x L (by omega) hx2]
        have hoff2 : x - (mn + 2 ^ (m + 1)) = (x - mn) % 2 ^ (m + 1) := by
          rw [Nat.mod_eq_sub_mod hoff, Nat.mod_eq_of_lt (by omega)]
          omega
        rw [hkey, if_pos hoff, ← hoff2]

theorem getD_take_of_lt (l : List Nat) (n i : Nat) (h : i < n) :
    (l.take n).getD i 0 = l.getD i 0 := by
  simp [List.getD_eq_getElem?_getD, List.getElem?_take, h]

theorem getD_drop_add (l : List Nat) (n j : Nat) :
    (l.drop n).getD j 0 = l.getD (n + j) 0 := by
  simp [List.getD_eq_getElem?_getD, List.getElem?_drop]

theorem subtreeLeafKey_left (stream : Key → Nat → Nat) (kk : Key)
    (m off : Nat) (h : off < 2 ^ (m + 1)) :
    subtreeLeafKey stream (m + 3) kk off =
      subtreeLeafKey stream (m + 2) (deriveKey stream kk 0) off := by
  show subtreeLeafKey stream (m + 2)
    (deriveKey stream kk (if 2 ^ (m + 1) ≤ off then 1 else 0))
    (off % 2 ^ (m + 1)) = _
  rw [if_neg (by omega), Nat.mod_eq_of_lt h]

theorem subtreeLeafKey_right (stream : Key → Nat → Nat) (kk : Key)
    (m off : Nat) (h1 : 2 ^ (m + 1) ≤ off) (h2 : off < 2 ^ (m + 2)) :
    subtreeLeafKey stream (m + 3) kk off =
      subtreeLeafKey stream (m + 2) (deriveKey stream kk 1)
        (off - 2 ^ (m + 1)) := by
  have hpow : (2 : Nat) ^ (m + 2) = 2 ^ (m + 1) * 2 := by rw [← pow_succ]
  show subtreeLeafKey stream (m + 2)
    (deriveKey stream kk (if 2 ^ (m + 1) ≤ off then 1 else 0))
    (off % 2 ^ (m + 1)) = _
  rw [if_pos h1, Nat.mod_eq_sub_mod h1, Nat.mod_eq_of_lt (by omega)]

/-- Unfolding of `innerUncheckedEvalRangeAux` at a positive fuel. -/
theorem innerUncheckedEvalRangeAux_succ (stream : Key → Nat → Nat)
    (blake : Key → Nat → List Nat → List Nat → List Nat → List Nat)
    (n : Nat) (e : InnerElt) (range : RCPrfRange) (lens : List Nat) :
    innerUncheckedEvalRangeAux stream blake (n + 1) e range lens =
      (if e.subtreeHeight > 2 then
        let halfWidth := halfWidthOf e.subtreeHeight
        let leftRange : RCPrfRange :=
          ⟨e.range.min, e.range.min + halfWidth - 1⟩
        let leftPart : Option (List (List Nat) × Nat) :=
          match leftRange.intersection range with
          | none => some ([], 0)
          | some r =>
            if r.width ≤ lens.length then
              (innerUncheckedEvalRangeAux stream blake n
                  ⟨deriveKey stream e.prgKey 0, leftRange,
                    e.subtreeHeight - 1, e.rcprfHeight⟩ r
                  (lens.take r.width)).map (fun outs => (outs, r.width))
            else none
        match leftPart with
        | none => none
        | some (leftOuts, outOffset) =>
          let rightRange : RCPrfRange :=
            ⟨e.range.min + halfWidth, e.range.max⟩
          match rightRange.intersection range with
          | none => some leftOuts
          | some r =>
            if outOffset + r.width ≤ lens.length then
              (innerUncheckedEvalRangeAux stream blake n
                  ⟨deriveKey stream e.prgKey 1, rightRange,
                    e.subtreeHeight - 1, e.rcprfHeight⟩ r
                  ((lens.drop outOffset).take r.width)).map
                (fun outs => leftOuts ++ outs)
            else none
      else
        let firstOuts : List (List Nat) :=
          if range.containsLeaf e.range.min then
            [leafUncheckedEval blake
              ⟨deriveKey stream e.prgKey 0, range.min, e.rcprfHeight⟩
              (lens.getD 0 0)]
          else []
        let outOffset := firstOuts.length
        if range.containsLeaf e.range.max then
          if outOffset < lens.length then
            some (firstOuts ++
              [leafUncheckedEval blake
                ⟨deriveKey stream e.prgKey 1, range.max, e.rcprfHeight⟩
                (lens.getD outOffset 0)])
          else none
        else some firstOuts) := rfl

/-- Characterization of
`ConstrainedRCPrfInnerElement::unchecked_eval_range` on a valid subtree and
an in-range query: it succeeds and the `i`-th output is the PRF of the leaf
key of `a + i`, at the `i`-th requested length. -/
theorem innerUncheckedEvalRange_spec (stream : Key → Nat → Nat)
    (blake : Key → Nat → List Nat → List Nat → List Nat → List Nat) :
    ∀ (s : Nat) (kk : Key) (mn mx H : Nat), 2 ≤ s → s ≤ H → H ≤ 65 →
    2 ^ (s - 1) ∣ mn → mx = mn + 2 ^ (s - 1) - 1 → mx < 2 ^ 64 →
    ∀ (a b : Nat) (lens : List Nat), mn ≤ a → a ≤ b → b ≤ mx →
    lens.length = b - a + 1 →
    innerUncheckedEvalRange stream blake ⟨kk, ⟨mn, mx⟩, s, H⟩ ⟨a, b⟩ lens =
      some ((List.range (b - a + 1)).map fun i =>
        prfFillBytes blake (subtreeLeafKey stream s kk (a + i - mn)) [0]
          (lens.getD i 0)) := by
  intro s
  induction s using Nat.strong_induction_on with
  | _ s ih =>
    intro kk mn mx H h2 hsh hH hdvd hmax hlt a b lens ha hab hb hlen
    match s, h2 with
    | 2, _ =>
      have hmax2 : mx = mn + 1 := by simpa using hmax
      show innerUncheckedEvalRangeAux stream blake (1 + 1) _ _ lens = _
      rw [innerUncheckedEvalRangeAux_succ]
      dsimp only
      rw [if_neg (show ¬ (2 : Nat) > 2 by omega)]
      simp only [RCPrfRange.containsLeaf, Bool.and_eq_true, decide_eq_true_eq]
      rcases Nat.lt_or_ge mn a with hcase | hcase
      · -- a = mn + 1 = b: only the right leaf
        have haeq : a = mn + 1 := by omega
        have hbeq : b = mn + 1 := by omega
        rw [if_neg (show ¬ (a ≤ mn ∧ mn ≤ b) by omega)]
        rw [if_pos (show a ≤ mx ∧ mx ≤ b by omega)]
        simp only [List.length_nil, List.nil_append]
        rw [if_pos (show 0 < lens.length by omega)]
        have hr : b - a + 1 = 1 := by omega
        rw [hr]
        rw [show List.range 1 = [0] from rfl]
        simp only [List.map_cons, List.map_nil]
        have hoff : a + 0 - mn = 1 := by omega
        rw [hoff]
        rfl
      · -- a = mn
        have haeq : a = mn := by omega
        rw [if_pos (show a ≤ mn ∧ mn ≤ b by omega)]
        rcases Nat.lt_or_ge b (mn + 1) with hbcase | hbcase
        · -- b = mn: only the left leaf
          have hbeq : b = mn := by omega
          rw [if_neg (show ¬ (a ≤ mx ∧ mx ≤ b) by omega)]
          have hr : b - a + 1 = 1 := by omega
          rw [hr]
          rw [show List.range 1 = [0] from rfl]
          simp only [List.map_cons, List.map_nil]
          have hoff : a + 0 - mn = 0 := by omega
          rw [hoff]
          rfl
        · -- b = mn + 1: both leaves
          have hbeq : b = mn + 1 := by omega
          rw [if_pos (show a ≤ mx ∧ mx ≤ b by omega)]
          simp only [List.length_cons, List.length_nil, Nat.zero_add]
          rw [if_pos (show 1 < lens.length by omega)]
          have hr : b - a + 1 = 2 := by omega
          rw [hr]
          rw [show List.range 2 = [0, 1] from rfl]
          simp only [List.map_cons, List.map_nil]
          have hoff0 : a + 0 - mn = 0 := by omega
          have hoff1 : a + 1 - mn = 1 := by omega
          rw [hoff0, hoff1]
          rfl
    | (m + 3), _ =>
      have hdvd2 : 2 ^ (m + 2) ∣ mn := by simpa using hdvd
      have hmax2 : mx = mn + 2 ^ (m + 2) - 1 := by simpa using hmax
      have hpowsplit : (2 : Nat) ^ (m + 2) = 2 ^ (m + 1) * 2 := by
        rw [← pow_succ]
      have hp0 : 0 < (2 : Nat) ^ (m + 1) := Nat.pos_pow_of_pos _ (by omega)
      have hdvd1 : 2 ^ (m + 1) ∣ mn :=
        dvd_trans (pow_dvd_pow 2 (by omega)) hdvd2
      have hdvdr : 2 ^ (m + 1) ∣ mn + 2 ^ (m + 1) := dvd_add hdvd1 dvd_rfl
      have hhw : halfWidthOf (m + 3) = 2 ^ (m + 1) := by
        have := halfWidthOf_eq (s := m + 3) (by omega) (by omega)
        simpa using this
      have hs3 : m + 3 - 1 = m + 2 := by omega
      show innerUncheckedEvalRangeAux stream blake ((m + 2) + 1) _ _ lens = _
      rw [innerUncheckedEvalRangeAux_succ]
      dsimp only
      rw [if_pos (show (2:Nat) < m + 3 by omega)]
      simp only [hhw, hs3]
      rcases Nat.lt_or_ge b (mn + 2 ^ (m + 1)) with hbmid | hbmid
      · -- case A: the query lies entirely in the left half
        have hintl : RCPrfRange.intersection
            ⟨mn, mn + 2 ^ (m + 1) - 1⟩ ⟨a, b⟩ = some ⟨a, b⟩ := by
          show (if a ≤ mn + 2 ^ (m + 1) - 1 ∧ mn ≤ b then
            some (RCPrfRange.mk (Max.max a mn) (Min.min b (mn + 2 ^ (m + 1) - 1)))
            else none) = some ⟨a, b⟩
          rw [if_pos ⟨by omega, by omega⟩, Nat.max_eq_left ha,
            Nat.min_eq_left (by omega)]
        rw [hintl]
        dsimp only
        rw [show RCPrfRange.width ⟨a, b⟩ = b - a + 1 from rfl]
        rw [if_pos (show b - a + 1 ≤ lens.length by omega)]
        rw [show lens.take (b - a + 1) = lens from by
          rw [← hlen, List.take_length]]
        have IHl : innerUncheckedEvalRangeAux stream blake (m + 2)
            ⟨deriveKey stream kk 0, ⟨mn, mn + 2 ^ (m + 1) - 1⟩, m + 2, H⟩
            ⟨a, b⟩ lens =
            some ((List.range (b - a + 1)).map fun i =>
              prfFillBytes blake
                (subtreeLeafKey stream (m + 2) (deriveKey stream kk 0)
                  (a + i - mn)) [0] (lens.getD i 0)) :=
          ih (m + 2) (by omega) (deriveKey stream kk 0) mn
            (mn + 2 ^ (m + 1) - 1) H (by omega) (by omega) hH hdvd1 rfl
            (by omega) a b lens ha hab (by omega) hlen
        rw [IHl]
        simp only [Option.map_some']
        have hintr : RCPrfRange.intersection
            ⟨mn + 2 ^ (m + 1), mx⟩ ⟨a, b⟩ = none := by
          show (if a ≤ mx ∧ mn + 2 ^ (m + 1) ≤ b then
            some (RCPrfRange.mk (Max.max a (mn + 2 ^ (m + 1))) (Min.min b mx))
            else none) = none
          rw [if_neg (by omega)]
        simp only [hintr]
        congr 1
        apply List.map_congr_left
        intro i him
        rw [List.mem_range] at him
        rw [subtreeLeafKey_left stream kk m (a + i - mn) (by omega)]
      · rcases Nat.lt_or_ge a (mn + 2 ^ (m + 1)) with hamid | hamid
        · -- case C: the query straddles the two halves
          have hintl : RCPrfRange.intersection
              ⟨mn, mn + 2 ^ (m + 1) - 1⟩ ⟨a, b⟩ =
              some ⟨a, mn + 2 ^ (m + 1) - 1⟩ := by
            show (if a ≤ mn + 2 ^ (m + 1) - 1 ∧ mn ≤ b then
              some (RCPrfRange.mk (Max.max a mn) (Min.min b (mn + 2 ^ (m + 1) - 1)))
              else none) = some ⟨a, mn + 2 ^ (m + 1) - 1⟩
            rw [if_pos ⟨by omega, by omega⟩, Nat.max_eq_left ha,
              Nat.min_eq_right (by omega)]
          rw [hintl]
          dsimp only
          rw [show RCPrfRange.width ⟨a, mn + 2 ^ (m + 1) - 1⟩ =
            mn + 2 ^ (m + 1) - a from by unfold RCPrfRange.width; dsimp only; omega]
          rw [if_pos (show mn + 2 ^ (m + 1) - a ≤ lens.length by omega)]
          have IHl : innerUncheckedEvalRangeAux stream blake (m + 2)
              ⟨deriveKey stream kk 0, ⟨mn, mn + 2 ^ (m + 1) - 1⟩, m + 2, H⟩
              ⟨a, mn + 2 ^ (m + 1) - 1⟩
              (lens.take (mn + 2 ^ (m + 1) - a)) =
              some ((List.range (mn + 2 ^ (m + 1) - 1 - a + 1)).map fun i =>
                prfFillBytes blake
                  (subtreeLeafKey stream (m + 2) (deriveKey stream kk 0)
                    (a + i - mn)) [0]
                  ((lens.take (mn + 2 ^ (m + 1) - a)).getD i 0)) :=
            ih (m + 2) (by omega) (deriveKey stream kk 0) mn
              (mn + 2 ^ (m + 1) - 1) H (by omega) (by omega) hH hdvd1 rfl
              (by omega) a (mn + 2 ^ (m + 1) - 1)
              (lens.take (mn + 2 ^ (m + 1) - a)) ha (by omega) (by omega)
              (by rw [List.length_take]; omega)
          rw [IHl]
          simp only [Option.map_some']
          have hintr : RCPrfRange.intersection
              ⟨mn + 2 ^ (m + 1), mx⟩ ⟨a, b⟩ =
              some ⟨mn + 2 ^ (m + 1), b⟩ := by
            show (if a ≤ mx ∧ mn + 2 ^ (m + 1) ≤ b then
              some (RCPrfRange.mk (Max.max a (mn + 2 ^ (m + 1))) (Min.min b mx))
              else none) = some ⟨mn + 2 ^ (m + 1), b⟩
            rw [if_pos ⟨by omega, by omega⟩, Nat.max_eq_right (by omega),
              Nat.min_eq_left (by omega)]
          simp only [hintr]
          rw [show RCPrfRange.width ⟨mn + 2 ^ (m + 1), b⟩ =
            b - (mn + 2 ^ (m + 1)) + 1 from rfl]
          rw [if_pos (show mn + 2 ^ (m + 1) - a + (b - (mn + 2 ^ (m + 1)) + 1)
            ≤ lens.length by omega)]
          have IHr : innerUncheckedEvalRangeAux stream blake (m + 2)
              ⟨deriveKey stream kk 1, ⟨mn + 2 ^ (m + 1), mx⟩, m + 2, H⟩
              ⟨mn + 2 ^ (m + 1), b⟩
              ((lens.drop (mn + 2 ^ (m + 1) - a)).take
                (b - (mn + 2 ^ (m + 1)) + 1)) =
              some ((List.range (b - (mn + 2 ^ (m + 1)) + 1)).map fun i =>
                prfFillBytes blake
                  (subtreeLeafKey stream (m + 2) (deriveKey stream kk 1)
                    (mn + 2 ^ (m + 1) + i - (mn + 2 ^ (m + 1)))) [0]
                  (((lens.drop (mn + 2 ^ (m + 1) - a)).take
                    (b - (mn + 2 ^ (m + 1)) + 1)).getD i 0)) :=
            ih (m + 2) (by omega) (deriveKey stream kk 1)
              (mn + 2 ^ (m + 1)) mx H (by omega) (by omega) hH hdvdr
              (show mx = mn + 2 ^ (m + 1) + 2 ^ (m + 1) - 1 by omega)
              hlt (mn + 2 ^ (m + 1)) b
              ((lens.drop (mn + 2 ^ (m + 1) - a)).take
                (b - (mn + 2 ^ (m + 1)) + 1))
              (by omega) (by omega) hb
              (by rw [List.length_take, List.length_drop]; omega)
          rw [IHr]
          simp only [Option.map_some', Option.some.injEq]
          rw [show List.range (b - a + 1) =
            List.range (mn + 2 ^ (m + 1) - a) ++
              (List.range (b - (mn + 2 ^ (m + 1)) + 1)).map
                (fun x => (mn + 2 ^ (m + 1) - a) + x) from by
            rw [show b - a + 1 =
              (mn + 2 ^ (m + 1) - a) + (b - (mn + 2 ^ (m + 1)) + 1) by omega,
              List.range_add]]
          rw [List.map_append, List.map_map]
          congr 1
          · rw [show mn + 2 ^ (m + 1) - 1 - a + 1 = mn + 2 ^ (m + 1) - a
              by omega]
            apply List.map_congr_left
            intro i him
            rw [List.mem_range] at him
            rw [subtreeLeafKey_left stream kk m (a + i - mn) (by omega)]
            rw [getD_take_of_lt _ _ _ (by omega)]
          · apply List.map_congr_left
            intro j hjm
            rw [List.mem_range] at hjm
            simp only [Function.comp_apply]
            rw [subtreeLeafKey_right stream kk m
              (a + (mn + 2 ^ (m + 1) - a + j) - mn) (by omega) (by omega)]
            rw [getD_take_of_lt _ _ _ (by omega), getD_drop_add]
            congr 2
            omega
        · -- case B: the query lies entirely in the right half
          have hintl : RCPrfRange.intersection
              ⟨mn, mn + 2 ^ (m + 1) - 1⟩ ⟨a, b⟩ = none := by
            show (if a ≤ mn + 2 ^ (m + 1) - 1 ∧ mn ≤ b then
              some (RCPrfRange.mk (Max.max a mn) (Min.min b (mn + 2 ^ (m + 1) - 1)))
              else none) = none
            rw [if_neg (by omega)]
          simp only [hintl]
          have hintr : RCPrfRange.intersection
              ⟨mn + 2 ^ (m + 1), mx⟩ ⟨a, b⟩ = some ⟨a, b⟩ := by
            show (if a ≤ mx ∧ mn + 2 ^ (m + 1) ≤ b then
              some (RCPrfRange.mk (Max.max a (mn + 2 ^ (m + 1))) (Min.min b mx))
              else none) = some ⟨a, b⟩
            rw [if_pos ⟨by omega, by omega⟩, Nat.max_eq_left hamid,
              Nat.min_eq_left (by omega)]
          simp only [hintr]
          rw [show RCPrfRange.width ⟨a, b⟩ = b - a + 1 from rfl]
          rw [if_pos (show 0 + (b - a + 1) ≤ lens.length by omega)]
          rw [List.drop_zero, show lens.take (b - a + 1) = lens from by
            rw [← hlen, List.take_length]]
          have IHr : innerUncheckedEvalRangeAux stream blake (m + 2)
              ⟨deriveKey stream kk 1, ⟨mn + 2 ^ (m + 1), mx⟩, m + 2, H⟩
              ⟨a, b⟩ lens =
              some ((List.range (b - a + 1)).map fun i =>
                prfFillBytes blake
                  (subtreeLeafKey stream (m + 2) (deriveKey stream kk 1)
                    (a + i - (mn + 2 ^ (m + 1)))) [0] (lens.getD i 0)) :=
            ih (m + 2) (by omega) (deriveKey stream kk 1)
              (mn + 2 ^ (m + 1)) mx H (by omega) (by omega) hH hdvdr
              (show mx = mn + 2 ^ (m + 1) + 2 ^ (m + 1) - 1 by omega)
              hlt a b lens hamid hab hb hlen
          rw [IHr]
          simp only [Option.map_some', List.nil_append, Option.some.injEq]
          apply List.map_congr_left
          intro i him
          rw [List.mem_range] at him
          rw [subtreeLeafKey_right stream kk m (a + i - mn)
            (by omega) (by omega)]
          congr 2
          omega


/-! ## Element-set invariant of constrained RC-PRFs -/

/-- The element-set invariant of a constrained RC-PRF covering the range
`r`: the element list is non-empty, its ranges are contiguous in increasing
order, they exactly cover `r`, and every element carries the tree height
`hH`. -/
theorem elemsMin_cons (e : RCPrfElt) (rest : List RCPrfElt) :
    elemsMin (e :: rest) = e.range.min := rfl

theorem elemsMin_append {els1 : List RCPrfElt} (els2 : List RCPrfElt)
    (h : els1 ≠ []) : elemsMin (els1 ++ els2) = elemsMin els1 := by
  cases els1 with
  | nil => exact absurd rfl h
  | cons e rest => rfl

theorem elemsMax_append (els1 : List RCPrfElt) {els2 : List RCPrfElt}
    (h : els2 ≠ []) : elemsMax (els1 ++ els2) = elemsMax els2 := by
  unfold elemsMax
  rw [List.getLastD_eq_getLast?, List.getLastD_eq_getLast?,
    List.getLast?_append]
  cases h2 : els2.getLast? with
  | none => exact absurd (List.getLast?_eq_none_iff.mp h2) h
  | some y => rfl

theorem elemsMax_getLast? {els : List RCPrfElt} {y : RCPrfElt}
    (h : els.getLast? = some y) : elemsMax els = y.range.max := by
  unfold elemsMax
  rw [List.getLastD_eq_getLast?, h]
  rfl

theorem elemsMin_head? {els : List RCPrfElt} {y : RCPrfElt}
    (h : els.head? = some y) : elemsMin els = y.range.min := by
  cases els with
  | nil => simp at h
  | cons e rest =>
    simp only [List.head?_cons, Option.some.injEq] at h
    rw [← h]
    rfl

/-- A successful `ConstrainedRCPrf::merge` of two invariant-satisfying
constrained RC-PRFs whose ranges are consecutive (`b` directly after `a`)
appends the element lists and preserves the invariant. -/
theorem mergeCRCPrf_spec {hH : Nat} {r1 r2 : RCPrfRange}
    {els1 els2 : List RCPrfElt}
    (h1 : ElemSetInv hH r1 els1) (h2 : ElemSetInv hH r2 els2)
    (hcons : r2.min = r1.max + 1) :
    mergeCRCPrf els1 els2 = some (els1 ++ els2) ∧
      ElemSetInv hH ⟨r1.min, r2.max⟩ (els1 ++ els2) := by
  obtain ⟨hne1, hmin1, hmax1, hchain1, hh1, hb1⟩ := h1
  obtain ⟨hne2, hmin2, hmax2, hchain2, hh2, hb2⟩ := h2
  have hr1 : r1.min ≤ r1.max := by
    cases els1 with
    | nil => exact absurd rfl hne1
    | cons e rest =>
      have := hb1 e (by simp)
      have hm : elemsMin (e :: rest) = e.range.min := rfl
      omega
  have hr2 : r2.min ≤ r2.max := by
    cases els2 with
    | nil => exact absurd rfl hne2
    | cons e rest =>
      have := hb2 e (by simp)
      omega
  constructor
  · unfold mergeCRCPrf
    rw [if_neg (by simpa [List.isEmpty_iff] using hne1),
      if_neg (by simpa [List.isEmpty_iff] using hne2),
      if_pos (by omega : elemsMax els1 < elemsMin els2),
      if_pos (by omega : elemsMin els2 - elemsMax els1 = 1)]
  · refine ⟨by simp [hne1], ?_, ?_, ?_, ?_, ?_⟩
    · rw [elemsMin_append els2 hne1, hmin1]
    · rw [elemsMax_append els1 hne2, hmax2]
    · rw [List.chain'_append]
      refine ⟨hchain1, hchain2, ?_⟩
      intro x hx y hy
      have hx2 : elemsMax els1 = x.range.max := elemsMax_getLast? hx
      have hy2 : elemsMin els2 = y.range.min := elemsMin_head? hy
      omega
    · intro el hel
      rcases List.mem_append.mp hel with h | h
      · exact hh1 el h
      · exact hh2 el h
    · intro el hel
      rcases List.mem_append.mp hel with h | h
      · have := hb1 el h
        refine ⟨by simpa using this.1, by simp; omega, this.2.2⟩
      · have := hb2 el h
        refine ⟨by simp; omega, by simpa using this.2.1, this.2.2⟩

theorem crcprfUncheckedEval_append_left (stream : Key → Nat → Nat)
    (blake : Key → Nat → List Nat → List Nat → List Nat → List Nat)
    {els1 : List RCPrfElt} (els2 : List RCPrfElt) {x : Nat} (L : Nat)
    (h : (els1.find? fun e => e.range.containsLeaf x).isSome) :
    crcprfUncheckedEval stream blake (els1 ++ els2) x L =
      crcprfUncheckedEval stream blake els1 x L := by
  unfold crcprfUncheckedEval
  rw [List.find?_append]
  obtain ⟨elt, he⟩ := Option.isSome_iff_exists.mp h
  rw [he]
  rfl

theorem crcprfUncheckedEval_append_right (stream : Key → Nat → Nat)
    (blake : Key → Nat → List Nat → List Nat → List Nat → List Nat)
    {els1 : List RCPrfElt} (els2 : List RCPrfElt) {x : Nat} (L : Nat)
    (h : ∀ el ∈ els1, el.range.containsLeaf x = false) :
    crcprfUncheckedEval stream blake (els1 ++ els2) x L =
      crcprfUncheckedEval stream blake els2 x L := by
  unfold crcprfUncheckedEval
  rw [List.find?_append, List.find?_eq_none.mpr (by
    intro el hel
    simp [h el hel])]
  rfl

theorem crcprfUncheckedEval_isSome (stream : Key → Nat → Nat)
    (blake : Key → Nat → List Nat → List Nat → List Nat → List Nat)
    {els : List RCPrfElt} {x L : Nat} {v : List Nat}
    (h : crcprfUncheckedEval stream blake els x L = some v) :
    (els.find? fun e => e.range.containsLeaf x).isSome := by
  unfold crcprfUncheckedEval at h
  cases hf : els.find? fun e => e.range.containsLeaf x with
  | none => rw [hf] at h; simp at h
  | some e => simp

/-- Unfolding of `innerUncheckedConstrainAux` at a positive fuel. -/
theorem innerUncheckedConstrainAux_succ (stream : Key → Nat → Nat)
    (n : Nat) (e : InnerElt) (range : RCPrfRange) :
    innerUncheckedConstrainAux stream (n + 1) e range =
      (if e.range = range then some [.inner e]
      else if e.subtreeHeight > 2 then
        let halfWidth := halfWidthOf e.subtreeHeight
        let leftRange : RCPrfRange :=
          ⟨e.range.min, e.range.min + halfWidth - 1⟩
        let rightRange : RCPrfRange :=
          ⟨e.range.min + halfWidth, e.range.max⟩
        let leftConstrained :=
          (leftRange.intersection range).map fun subrange =>
            innerUncheckedConstrainAux stream n
              ⟨deriveKey stream e.prgKey 0, leftRange,
                e.subtreeHeight - 1, e.rcprfHeight⟩ subrange
        let rightConstrained :=
          (rightRange.intersection range).map fun subrange =>
            innerUncheckedConstrainAux stream n
              ⟨deriveKey stream e.prgKey 1, rightRange,
                e.subtreeHeight - 1, e.rcprfHeight⟩ subrange
        match leftConstrained, rightConstrained with
        | none, none => none
        | none, some c => c
        | some c, none => c
        | some cl, some cr =>
          match cl, cr with
          | some l, some r => mergeCRCPrf l r
          | _, _ => none
      else
        let child := getChildNode e.rcprfHeight range.min
          (u8sub e.rcprfHeight e.subtreeHeight)
        let childNum : Nat := if child then 1 else 0
        some [.leaf ⟨deriveKey stream e.prgKey childNum, range.min,
          e.rcprfHeight⟩]) := rfl

/-- Constraining an element on its full range returns a clone of the
element. -/
theorem innerUncheckedConstrain_full (stream : Key → Nat → Nat) (kk : Key)
    (mn mx s H : Nat) (hs : 1 ≤ s) :
    innerUncheckedConstrain stream ⟨kk, ⟨mn, mx⟩, s, H⟩ ⟨mn, mx⟩ =
      some [.inner ⟨kk, ⟨mn, mx⟩, s, H⟩] := by
  obtain ⟨n, rfl⟩ : ∃ n, s = n + 1 := ⟨s - 1, by omega⟩
  show innerUncheckedConstrainAux stream (n + 1) _ _ = _
  rw [innerUncheckedConstrainAux_succ]
  dsimp only
  rw [if_pos rfl]

theorem crcprfUncheckedEval_singleton (stream : Key → Nat → Nat)
    (blake : Key → Nat → List Nat → List Nat → List Nat → List Nat)
    (el : RCPrfElt) (x L : Nat) (h : el.range.containsLeaf x = true) :
    crcprfUncheckedEval stream blake [el] x L =
      some (eltUncheckedEval stream blake el x L) := by
  unfold crcprfUncheckedEval
  rw [@List.find?_cons_of_pos RCPrfElt
    (fun e : RCPrfElt => e.range.containsLeaf x) el [] h]
  rfl

theorem elemSetInv_singleton_inner (kk : Key) (mn mx s H : Nat)
    (hminmax : mn ≤ mx) :
    ElemSetInv H ⟨mn, mx⟩ [.inner ⟨kk, ⟨mn, mx⟩, s, H⟩] := by
  refine ⟨by simp, rfl, rfl, List.chain'_singleton _, ?_, ?_⟩
  · intro el hel
    simp only [List.mem_singleton] at hel
    subst hel
    rfl
  · intro el hel
    simp only [List.mem_singleton] at hel
    subst hel
    exact ⟨le_refl _, le_refl _, hminmax⟩

theorem elemSetInv_singleton_leaf (kk : Key) (x H : Nat) :
    ElemSetInv H ⟨x, x⟩ [.leaf ⟨kk, x, H⟩] := by
  refine ⟨by simp, rfl, rfl, List.chain'_singleton _, ?_, ?_⟩
  · intro el hel
    simp only [List.mem_singleton] at hel
    subst hel
    rfl
  · intro el hel
    simp only [List.mem_singleton] at hel
    subst hel
    exact ⟨le_refl _, le_refl _, le_refl _⟩

/-- Characterization of
`ConstrainedRCPrfInnerElement::unchecked_constrain` on a valid subtree and
an in-range target: it succeeds, the produced element set satisfies the
element-set invariant over the target range, and the constrained evaluation
agrees with the element's own evaluation at every point of the target. -/
theorem innerUncheckedConstrain_spec (stream : Key → Nat → Nat) :
    ∀ (s : Nat) (kk : Key) (mn mx H : Nat), 2 ≤ s → s ≤ H → H ≤ 65 →
    2 ^ (s - 1) ∣ mn → mx = mn + 2 ^ (s - 1) - 1 → mx < 2 ^ 64 →
    ∀ (a b : Nat), mn ≤ a → a ≤ b → b ≤ mx →
    ∃ els,
      innerUncheckedConstrain stream ⟨kk, ⟨mn, mx⟩, s, H⟩ ⟨a, b⟩ =
        some els ∧
      ElemSetInv H ⟨a, b⟩ els ∧
      ∀ (blake : Key → Nat → List Nat → List Nat → List Nat → List Nat)
        (x L : Nat), a ≤ x → x ≤ b →
        crcprfUncheckedEval stream blake els x L =
          some (innerUncheckedEval stream blake ⟨kk, ⟨mn, mx⟩, s, H⟩ x L) := by
  intro s
  induction s using Nat.strong_induction_on with
  | _ s ih =>
    intro kk mn mx H h2 hsh hH hdvd hmax hlt a b ha hab hb
    match s, h2 with
    | 2, _ =>
      have hmax2 : mx = mn + 1 := by simpa using hmax
      by_cases heq : mn = a ∧ mx = b
      · refine ⟨[.inner ⟨kk, ⟨mn, mx⟩, 2, H⟩], ?_, ?_, ?_⟩
        · rw [show (⟨a, b⟩ : RCPrfRange) = ⟨mn, mx⟩ from by
            rw [heq.1, heq.2]]
          exact innerUncheckedConstrain_full stream kk mn mx 2 H (by omega)
        · rw [show (⟨a, b⟩ : RCPrfRange) = ⟨mn, mx⟩ from by
            rw [heq.1, heq.2]]
          exact elemSetInv_singleton_inner kk mn mx 2 H (by omega)
        · intro blake x L hx1 hx2
          rw [crcprfUncheckedEval_singleton stream blake _ x L (by
            simp only [RCPrfElt.range, RCPrfRange.containsLeaf,
              Bool.and_eq_true, decide_eq_true_eq]
            omega)]
          rfl
      · -- a width-1 target inside a height-2 element: a leaf is emitted
        have hab2 : a = b := by omega
        refine ⟨[.leaf ⟨deriveKey stream kk (a - mn), a, H⟩], ?_, ?_, ?_⟩
        · show innerUncheckedConstrainAux stream (1 + 1) _ _ = _
          rw [innerUncheckedConstrainAux_succ]
          dsimp only
          rw [if_neg (by
            simp only [RCPrfRange.mk.injEq]
            exact heq)]
          rw [if_neg (show ¬ (2:Nat) > 2 by omega)]
          have hbit : getChildNode H a (u8sub H 2) =
              decide (1 ≤ a - mn) := by
            rw [getChildNode_eq (by omega) hsh hH]
            have := testBit_aligned_add (s := 2) (m := mn) (o := a - mn)
              (by omega) (by simpa using hdvd) (by omega)
            have hxx : mn + (a - mn) = a := by omega
            rw [hxx] at this
            simpa using this
          rw [hbit]
          rcases Nat.lt_or_ge (a - mn) 1 with hoff | hoff
          · simp only [decide_eq_true_eq]
            rw [if_neg (by omega)]
            rw [show a - mn = 0 by omega]
          · simp only [decide_eq_true_eq]
            rw [if_pos hoff]
            rw [show a - mn = 1 by omega]
        · rw [← hab2]
          exact elemSetInv_singleton_leaf _ a H
        · intro blake x L hx1 hx2
          have hxa : x = a := by omega
          subst hxa
          rw [crcprfUncheckedEval_singleton stream blake _ x L (by
            simp only [RCPrfElt.range, RCPrfRange.containsLeaf,
              Bool.and_eq_true, decide_eq_true_eq]
            omega)]
          rw [innerUncheckedEval_leaf_eq stream blake kk mn mx H L x hH hsh
            (by simpa using hdvd) hmax2 hlt (by omega) (by omega)]
          rfl
    | (m + 3), _ =>
      have hdvd2 : 2 ^ (m + 2) ∣ mn := by simpa using hdvd
      have hmax2 : mx = mn + 2 ^ (m + 2) - 1 := by simpa using hmax
      have hpowsplit : (2 : Nat) ^ (m + 2) = 2 ^ (m + 1) * 2 := by
        rw [← pow_succ]
      have hp0 : 0 < (2 : Nat) ^ (m + 1) := Nat.pos_pow_of_pos _ (by omega)
      have hdvd1 : 2 ^ (m + 1) ∣ mn :=
        dvd_trans (pow_dvd_pow 2 (by omega)) hdvd2
      have hdvdr : 2 ^ (m + 1) ∣ mn + 2 ^ (m + 1) := dvd_add hdvd1 dvd_rfl
      have hhw : halfWidthOf (m + 3) = 2 ^ (m + 1) := by
        have := halfWidthOf_eq (s := m + 3) (by omega) (by omega)
        simpa using this
      have hs3 : m + 3 - 1 = m + 2 := by omega
      by_cases heq : mn = a ∧ mx = b
      · refine ⟨[.inner ⟨kk, ⟨mn, mx⟩, m + 3, H⟩], ?_, ?_, ?_⟩
        · rw [show (⟨a, b⟩ : RCPrfRange) = ⟨mn, mx⟩ from by
            rw [heq.1, heq.2]]
          exact innerUncheckedConstrain_full stream kk mn mx (m + 3) H
            (by omega)
        · rw [show (⟨a, b⟩ : RCPrfRange) = ⟨mn, mx⟩ from by
            rw [heq.1, heq.2]]
          exact elemSetInv_singleton_inner kk mn mx (m + 3) H (by omega)
        · intro blake x L hx1 hx2
          rw [crcprfUncheckedEval_singleton stream blake _ x L (by
            simp only [RCPrfElt.range, RCPrfRange.containsLeaf,
              Bool.and_eq_true, decide_eq_true_eq]
            omega)]
          rfl
      · rcases Nat.lt_or_ge b (mn + 2 ^ (m + 1)) with hbmid | hbmid
        · -- case A: the target lies entirely in the left half
          have hintl : RCPrfRange.intersection
              ⟨mn, mn + 2 ^ (m + 1) - 1⟩ ⟨a, b⟩ = some ⟨a, b⟩ := by
            show (if a ≤ mn + 2 ^ (m + 1) - 1 ∧ mn ≤ b then
              some (RCPrfRange.mk (Max.max a mn)
                (Min.min b (mn + 2 ^ (m + 1) - 1)))
              else none) = some ⟨a, b⟩
            rw [if_pos ⟨by omega, by omega⟩, Nat.max_eq_left ha,
              Nat.min_eq_left (by omega)]
          have hintr : RCPrfRange.intersection
              ⟨mn + 2 ^ (m + 1), mx⟩ ⟨a, b⟩ = none := by
            show (if a ≤ mx ∧ mn + 2 ^ (m + 1) ≤ b then
              some (RCPrfRange.mk (Max.max a (mn + 2 ^ (m + 1)))
                (Min.min b mx))
              else none) = none
            rw [if_neg (by omega)]
          obtain ⟨els, hsome, hinv, heval⟩ := ih (m + 2) (by omega)
            (deriveKey stream kk 0) mn (mn + 2 ^ (m + 1) - 1) H (by omega)
            (by omega) hH hdvd1 rfl (by omega) a b ha hab (by omega)
          have hsome2 : innerUncheckedConstrainAux stream (m + 2)
              ⟨deriveKey stream kk 0, ⟨mn, mn + 2 ^ (m + 1) - 1⟩, m + 2, H⟩
              ⟨a, b⟩ = some els := hsome
          refine ⟨els, ?_, hinv, ?_⟩
          · show innerUncheckedConstrainAux stream ((m + 2) + 1) _ _ = _
            rw [innerUncheckedConstrainAux_succ]
            dsimp only
            rw [if_neg (by
              simp only [RCPrfRange.mk.injEq]
              exact heq)]
            rw [if_pos (show (2:Nat) < m + 3 by omega)]
            simp only [hhw, hs3, hintl, hintr, Option.map_some',
              Option.map_none']
            rw [hsome2]
          · intro blake x L hx1 hx2
            rw [heval blake x L hx1 hx2]
            congr 1
            rw [innerUncheckedEval_step stream blake kk mn mx m H L x hH
              (by omega) hdvd2 hmax2 hlt (by omega) (by omega)]
            rw [if_neg (by omega)]
        · rcases Nat.lt_or_ge a (mn + 2 ^ (m + 1)) with hamid | hamid
          · -- case C: the target straddles the two halves
            have hintl : RCPrfRange.intersection
                ⟨mn, mn + 2 ^ (m + 1) - 1⟩ ⟨a, b⟩ =
                some ⟨a, mn + 2 ^ (m + 1) - 1⟩ := by
              show (if a ≤ mn + 2 ^ (m + 1) - 1 ∧ mn ≤ b then
                some (RCPrfRange.mk (Max.max a mn)
                  (Min.min b (mn + 2 ^ (m + 1) - 1)))
                else none) = some ⟨a, mn + 2 ^ (m + 1) - 1⟩
              rw [if_pos ⟨by omega, by omega⟩, Nat.max_eq_left ha,
                Nat.min_eq_right (by omega)]
            have hintr : RCPrfRange.intersection
                ⟨mn + 2 ^ (m + 1), mx⟩ ⟨a, b⟩ =
                some ⟨mn + 2 ^ (m + 1), b⟩ := by
              show (if a ≤ mx ∧ mn + 2 ^ (m + 1) ≤ b then
                some (RCPrfRange.mk (Max.max a (mn + 2 ^ (m + 1)))
                  (Min.min b mx))
                else none) = some ⟨mn + 2 ^ (m + 1), b⟩
              rw [if_pos ⟨by omega, by omega⟩, Nat.max_eq_right (by omega),
                Nat.min_eq_left (by omega)]
            obtain ⟨els1, hsome1, hinv1, heval1⟩ := ih (m + 2) (by omega)
              (deriveKey stream kk 0) mn (mn + 2 ^ (m + 1) - 1) H (by omega)
              (by omega) hH hdvd1 rfl (by omega) a (mn + 2 ^ (m + 1) - 1)
              ha (by omega) (by omega)
            obtain ⟨els2, hsome2, hinv2, heval2⟩ := ih (m + 2) (by omega)
              (deriveKey stream kk 1) (mn + 2 ^ (m + 1)) mx H (by omega)
              (by omega) hH hdvdr
              (show mx = mn + 2 ^ (m + 1) + 2 ^ (m + 1) - 1 by omega)
              hlt (mn + 2 ^ (m + 1)) b (by omega) (by omega) hb
            have hsome1x : innerUncheckedConstrainAux stream (m + 2)
                ⟨deriveKey stream kk 0, ⟨mn, mn + 2 ^ (m + 1) - 1⟩,
                  m + 2, H⟩ ⟨a, mn + 2 ^ (m + 1) - 1⟩ = some els1 := hsome1
            have hsome2x : innerUncheckedConstrainAux stream (m + 2)
                ⟨deriveKey stream kk 1, ⟨mn + 2 ^ (m + 1), mx⟩, m + 2, H⟩
                ⟨mn + 2 ^ (m + 1), b⟩ = some els2 := hsome2
            have hmerge := mergeCRCPrf_spec hinv1 hinv2 (by
              show mn + 2 ^ (m + 1) = mn + 2 ^ (m + 1) - 1 + 1
              omega)
            refine ⟨els1 ++ els2, ?_, hmerge.2, ?_⟩
            · show innerUncheckedConstrainAux stream ((m + 2) + 1) _ _ = _
              rw [innerUncheckedConstrainAux_succ]
              dsimp only
              rw [if_neg (by
                simp only [RCPrfRange.mk.injEq]
                exact heq)]
              rw [if_pos (show (2:Nat) < m + 3 by omega)]
              simp only [hhw, hs3, hintl, hintr, Option.map_some']
              rw [hsome1x, hsome2x]
              exact hmerge.1
            · intro blake x L hx1 hx2
              rcases Nat.lt_or_ge x (mn + 2 ^ (m + 1)) with hxmid | hxmid
              · rw [crcprfUncheckedEval_append_left stream blake els2 L
                  (crcprfUncheckedEval_isSome stream blake
                    (heval1 blake x L hx1 (by omega)))]
                rw [heval1 blake x L hx1 (by omega)]
                congr 1
                rw [innerUncheckedEval_step stream blake kk mn mx m H L x hH
                  (by omega) hdvd2 hmax2 hlt (by omega) (by omega)]
                rw [if_neg (by omega)]
              · rw [crcprfUncheckedEval_append_right stream blake els2 L (by
                  intro el hel
                  have hbnd := hinv1.bounds el hel
                  have hel2 : el.range.max ≤ mn + 2 ^ (m + 1) - 1 :=
                    hbnd.2.1
                  simp only [RCPrfRange.containsLeaf, Bool.and_eq_false_iff,
                    decide_eq_false_iff_not]
                  right
                  omega)]
                rw [heval2 blake x L (by omega) hx2]
                congr 1
                rw [innerUncheckedEval_step stream blake kk mn mx m H L x hH
                  (by omega) hdvd2 hmax2 hlt (by omega) (by omega)]
                rw [if_pos (by omega)]
          · -- case B: the target lies entirely in the right half
            have hintl : RCPrfRange.intersection
                ⟨mn, mn + 2 ^ (m + 1) - 1⟩ ⟨a, b⟩ = none := by
              show (if a ≤ mn + 2 ^ (m + 1) - 1 ∧ mn ≤ b then
                some (RCPrfRange.mk (Max.max a mn)
                  (Min.min b (mn + 2 ^ (m + 1) - 1)))
                else none) = none
              rw [if_neg (by omega)]
            have hintr : RCPrfRange.intersection
                ⟨mn + 2 ^ (m + 1), mx⟩ ⟨a, b⟩ = some ⟨a, b⟩ := by
              show (if a ≤ mx ∧ mn + 2 ^ (m + 1) ≤ b then
                some (RCPrfRange.mk (Max.max a (mn + 2 ^ (m + 1)))
                  (Min.min b mx))
                else none) = some ⟨a, b⟩
              rw [if_pos ⟨by omega, by omega⟩, Nat.max_eq_left hamid,
                Nat.min_eq_left (by omega)]
            obtain ⟨els, hsome, hinv, heval⟩ := ih (m + 2) (by omega)
              (deriveKey stream kk 1) (mn + 2 ^ (m + 1)) mx H (by omega)
              (by omega) hH hdvdr
              (show mx = mn + 2 ^ (m + 1) + 2 ^ (m + 1) - 1 by omega)
              hlt a b hamid hab hb
            have hsome2 : innerUncheckedConstrainAux stream (m + 2)
                ⟨deriveKey stream kk 1, ⟨mn + 2 ^ (m + 1), mx⟩, m + 2, H⟩
                ⟨a, b⟩ = some els := hsome
            refine ⟨els, ?_, hinv, ?_⟩
            · show innerUncheckedConstrainAux stream ((m + 2) + 1) _ _ = _
              rw [innerUncheckedConstrainAux_succ]
              dsimp only
              rw [if_neg (by
                simp only [RCPrfRange.mk.injEq]
                exact heq)]
              rw [if_pos (show (2:Nat) < m + 3 by omega)]
              simp only [hhw, hs3, hintl, hintr, Option.map_some',
                Option.map_none']
              rw [hsome2]
            · intro blake x L hx1 hx2
              rw [heval blake x L hx1 hx2]
              congr 1
              rw [innerUncheckedEval_step stream blake kk mn mx m H L x hH
                (by omega) hdvd2 hmax2 hlt (by omega) (by omega)]
              rw [if_pos (by omega)]

theorem maxLeafIndex_eq {h : Nat} (h1 : 1 ≤ h) (h2 : h ≤ 65) :
    maxLeafIndex h = 2 ^ (h - 1) - 1 := by
  unfold maxLeafIndex MAX_HEIGHT
  rw [if_neg (by omega)]
  rcases Nat.lt_or_ge h 65 with hc | hc
  · rw [if_neg (by omega)]
  · have h65 : h = 65 := by omega
    subst h65
    rw [if_pos (by omega)]

theorem crcprfRange_of_inv {hH : Nat} {r : RCPrfRange} {els : List RCPrfElt}
    (h : ElemSetInv hH r els) : crcprfRange els = some r := by
  obtain ⟨hne, hmin, hmax, _, _, _⟩ := h
  cases els with
  | nil => exact absurd rfl hne
  | cons e rest =>
    show some ⟨elemsMin (e :: rest), elemsMax (e :: rest)⟩ = some r
    rw [hmin, hmax]

theorem elemSetInv_width_one {hH x : Nat} {els : List RCPrfElt}
    (h : ElemSetInv hH ⟨x, x⟩ els) : ∃ el, els = [el] := by
  obtain ⟨hne, hmin, hmax, hchain, _, hb⟩ := h
  cases els with
  | nil => exact absurd rfl hne
  | cons e rest =>
    cases rest with
    | nil => exact ⟨e, rfl⟩
    | cons e2 rest2 =>
      exfalso
      have hlink : e2.range.min = e.range.max + 1 :=
        (List.chain'_cons.mp hchain).1
      have hbe := hb e (by simp)
      have hbe2 := hb e2 (by simp)
      have he1 : (⟨x, x⟩ : RCPrfRange).min ≤ e.range.min ∧
          e.range.max ≤ (⟨x, x⟩ : RCPrfRange).max ∧
          e.range.min ≤ e.range.max := hbe
      have he2 : (⟨x, x⟩ : RCPrfRange).min ≤ e2.range.min ∧
          e2.range.max ≤ (⟨x, x⟩ : RCPrfRange).max ∧
          e2.range.min ≤ e2.range.max := hbe2
      simp only at he1 he2
      omega

/-! ## The claims -/

/-- C1: For every RC-PRF of height `H` with `1 ≤ H ≤ 65` and every range
`[a, b]` contained in the tree's range `[0, maxLeafIndex H]`,
`rcprfConstrain` succeeds, the returned constrained RC-PRF's `crcprfRange`
equals `[a, b]`, and its `crcprfEval` returns exactly the bytes of the
unconstrained `rcprfEval` (both succeeding) at every `x` in `[a, b]`, for
every output length. -/
theorem c1_constrain_consistency (stream : Key → Nat → Nat)
    (blake : Key → Nat → List Nat → List Nat → List Nat → List Nat)
    (k : Key) (hH a b x L : Nat) (h1 : 1 ≤ hH) (h65 : hH ≤ 65)
    (hab : a ≤ b) (hb : b ≤ maxLeafIndex hH) (hx1 : a ≤ x) (hx2 : x ≤ b) :
    ∃ t els,
      rcprfNew k hH = some t ∧
      rcprfConstrain stream t ⟨a, b⟩ = some els ∧
      crcprfRange els = some ⟨a, b⟩ ∧
      crcprfEval stream blake els x L = rcprfEval stream blake t x L ∧
      (crcprfEval stream blake els x L).isSome := by
  have ht : rcprfNew k hH = some ⟨⟨k, ⟨0, maxLeafIndex hH⟩, hH, hH⟩⟩ := by
    unfold rcprfNew MAX_HEIGHT
    rw [if_neg (by omega)]
  have hcr : (⟨0, maxLeafIndex hH⟩ : RCPrfRange).containsRange ⟨a, b⟩ =
      true := by
    simp only [RCPrfRange.containsRange, Bool.and_eq_true, decide_eq_true_eq]
    exact ⟨Nat.zero_le a, hb⟩
  rcases Nat.lt_or_ge hH 2 with hcase | hcase
  · -- height 1: the tree's range is the single leaf 0
    have hH1 : hH = 1 := by omega
    subst hH1
    have hml : maxLeafIndex 1 = 0 := rfl
    have hb0 : b = 0 := by omega
    subst hb0
    have ha0 : a = 0 := by omega
    subst ha0
    have hx0 : x = 0 := by omega
    subst hx0
    refine ⟨⟨⟨k, ⟨0, 0⟩, 1, 1⟩⟩, [.inner ⟨k, ⟨0, 0⟩, 1, 1⟩], ht, ?_, rfl,
      rfl, rfl⟩
    unfold rcprfConstrain
    rw [if_neg (show
      ¬¬(⟨0, 0⟩ : RCPrfRange).containsRange ⟨0, 0⟩ = true by decide)]
    exact innerUncheckedConstrain_full stream k 0 0 1 1 (by omega)
  · -- height at least 2: use the constrain characterization on the root
    have hml : maxLeafIndex hH = 2 ^ (hH - 1) - 1 :=
      maxLeafIndex_eq (by omega) h65
    have hp : 0 < (2 : Nat) ^ (hH - 1) := Nat.pos_pow_of_pos _ (by omega)
    have hle : (2 : Nat) ^ (hH - 1) ≤ 2 ^ 64 :=
      Nat.pow_le_pow_right (by omega) (by omega)
    have hb2 : b ≤ 2 ^ (hH - 1) - 1 := by rw [hml] at hb; exact hb
    obtain ⟨els, hsome, hinv, heval⟩ :=
      innerUncheckedConstrain_spec stream hH k 0 (2 ^ (hH - 1) - 1) hH hcase
        (le_refl hH) h65 (dvd_zero _) (by omega) (by omega) a b
        (Nat.zero_le a) hab hb2
    have hclx : (⟨a, b⟩ : RCPrfRange).containsLeaf x = true := by
      simp only [RCPrfRange.containsLeaf, Bool.and_eq_true, decide_eq_true_eq]
      exact ⟨hx1, hx2⟩
    have hce : crcprfEval stream blake els x L =
        some (innerUncheckedEval stream blake
          ⟨k, ⟨0, 2 ^ (hH - 1) - 1⟩, hH, hH⟩ x L) := by
      unfold crcprfEval
      simp only [crcprfRange_of_inv hinv]
      rw [if_pos hclx]
      exact heval blake x L hx1 hx2
    refine ⟨⟨⟨k, ⟨0, maxLeafIndex hH⟩, hH, hH⟩⟩, els, ht, ?_, ?_, ?_, ?_⟩
    · unfold rcprfConstrain
      rw [if_neg (by simp [hcr])]
      show innerUncheckedConstrain stream ⟨k, ⟨0, maxLeafIndex hH⟩, hH, hH⟩
        ⟨a, b⟩ = some els
      rw [hml]
      exact hsome
    · exact crcprfRange_of_inv hinv
    · rw [hce]
      unfold rcprfEval
      rw [if_pos (show (⟨0, maxLeafIndex hH⟩ : RCPrfRange).containsLeaf x =
          true by
        simp only [RCPrfRange.containsLeaf, Bool.and_eq_true,
          decide_eq_true_eq]
        omega), hml]
    · rw [hce]
      rfl

/-- Witness for C1 at height 2, range `[0, 1]`, point `0`, length 8. -/
theorem c1_constrain_consistency_witness :
    (1 ≤ 2 ∧ 2 ≤ 65 ∧ 0 ≤ 1 ∧ 1 ≤ maxLeafIndex 2 ∧ 0 ≤ 0 ∧ 0 ≤ 1) ∧
    (∃ t els,
      rcprfNew keyW 2 = some t ∧
      rcprfConstrain streamW t ⟨0, 1⟩ = some els ∧
      crcprfRange els = some ⟨0, 1⟩ ∧
      crcprfEval streamW blakeW els 0 8 = rcprfEval streamW blakeW t 0 8 ∧
      (crcprfEval streamW blakeW els 0 8).isSome) :=
  ⟨by decide, c1_constrain_consistency streamW blakeW keyW 2 0 1 0 8
    (by decide) (by decide) (by decide) (by decide) (by decide) (by decide)⟩

/-- C2 (amended): for every RC-PRF of height `2 ≤ H ≤ 65` and every
subrange `[a, b]` of its range, when the output slice count equals
`b - a + 1`, `rcprfEvalRange` succeeds and its `i`-th output equals the
bytes `rcprfEval` produces at `a + i` with the `i`-th requested length, for
every `i ≤ b - a`. The claim's unrestricted height quantification fails at
height 1, where `eval_range` panics (see the counterexample theorem). -/
theorem c2_eval_range_consistency (stream : Key → Nat → Nat)
    (blake : Key → Nat → List Nat → List Nat → List Nat → List Nat)
    (k : Key) (hH a b i : Nat) (lens : List Nat)
    (h2 : 2 ≤ hH) (h65 : hH ≤ 65) (hab : a ≤ b) (hb : b ≤ maxLeafIndex hH)
    (hlen : lens.length = b - a + 1) (hi : i ≤ b - a) :
    ∃ t outs,
      rcprfNew k hH = some t ∧
      rcprfEvalRange stream blake t ⟨a, b⟩ lens = some outs ∧
      some (outs.getD i []) =
        rcprfEval stream blake t (a + i) (lens.getD i 0) := by
  have ht : rcprfNew k hH = some ⟨⟨k, ⟨0, maxLeafIndex hH⟩, hH, hH⟩⟩ := by
    unfold rcprfNew MAX_HEIGHT
    rw [if_neg (by omega)]
  have hml : maxLeafIndex hH = 2 ^ (hH - 1) - 1 :=
    maxLeafIndex_eq (by omega) h65
  have hp : 0 < (2 : Nat) ^ (hH - 1) := Nat.pos_pow_of_pos _ (by omega)
  have hle : (2 : Nat) ^ (hH - 1) ≤ 2 ^ 64 :=
    Nat.pow_le_pow_right (by omega) (by omega)
  have hb2 : b ≤ 2 ^ (hH - 1) - 1 := by rw [hml] at hb; exact hb
  have hr := innerUncheckedEvalRange_spec stream blake hH k 0
    (2 ^ (hH - 1) - 1) hH h2 (le_refl hH) h65 (dvd_zero _) (by omega)
    (by omega) a b lens (Nat.zero_le a) hab hb2 hlen
  refine ⟨⟨⟨k, ⟨0, maxLeafIndex hH⟩, hH, hH⟩⟩,
    (List.range (b - a + 1)).map fun j =>
      prfFillBytes blake (subtreeLeafKey stream hH k (a + j - 0)) [0]
        (lens.getD j 0), ht, ?_, ?_⟩
  · unfold rcprfEvalRange
    rw [if_neg (show ¬¬(⟨0, maxLeafIndex hH⟩ : RCPrfRange).containsRange
        ⟨a, b⟩ = true by
      simp only [RCPrfRange.containsRange, Bool.and_eq_true,
        decide_eq_true_eq, not_not]
      exact ⟨Nat.zero_le a, hb⟩)]
    rw [if_neg (show ¬(⟨a, b⟩ : RCPrfRange).width ≠ lens.length by
      simp only [RCPrfRange.width]
      omega)]
    show innerUncheckedEvalRange stream blake
      ⟨k, ⟨0, maxLeafIndex hH⟩, hH, hH⟩ ⟨a, b⟩ lens = _
    rw [hml]
    exact hr
  · have hgi : ((List.range (b - a + 1)).map fun j =>
        prfFillBytes blake (subtreeLeafKey stream hH k (a + j - 0)) [0]
          (lens.getD j 0)).getD i [] =
        prfFillBytes blake (subtreeLeafKey stream hH k (a + i - 0)) [0]
          (lens.getD i 0) := by
      rw [List.getD_eq_getElem?_getD, List.getElem?_map,
        List.getElem?_range (show i < b - a + 1 by omega)]
      rfl
    rw [hgi]
    unfold rcprfEval
    rw [if_pos (show (⟨0, maxLeafIndex hH⟩ : RCPrfRange).containsLeaf
        (a + i) = true by
      simp only [RCPrfRange.containsLeaf, Bool.and_eq_true,
        decide_eq_true_eq]
      omega), hml]
    rw [innerUncheckedEval_spec stream blake hH k 0 (2 ^ (hH - 1) - 1) hH h2
      (le_refl hH) h65 (dvd_zero _) (by omega) (by omega) (a + i)
      (lens.getD i 0) (Nat.zero_le _) (by omega)]

/-- Witness for C2 at height 2, range `[0, 1]`, output lengths 4 and 4,
index 1. -/
theorem c2_eval_range_consistency_witness :
    (2 ≤ 2 ∧ 2 ≤ 65 ∧ 0 ≤ 1 ∧ 1 ≤ maxLeafIndex 2 ∧
      ([4, 4] : List Nat).length = 1 - 0 + 1 ∧ 1 ≤ 1 - 0) ∧
    (∃ t outs,
      rcprfNew keyW 2 = some t ∧
      rcprfEvalRange streamW blakeW t ⟨0, 1⟩ [4, 4] = some outs ∧
      some (outs.getD 1 []) =
        rcprfEval streamW blakeW t (0 + 1) (([4, 4] : List Nat).getD 1 0)) :=
  ⟨by decide, c2_eval_range_consistency streamW blakeW keyW 2 0 1 1 [4, 4]
    (by decide) (by decide) (by decide) (by decide) (by decide) (by decide)⟩

/-- C2 counterexample: at height 1 the (in-range, well-sized) range query
`eval_range([0, 0])` panics — an out-of-bounds write in the source, `none`
here — even though the point evaluation `eval(0)` succeeds, so the claim's
quantification over every RC-PRF fails. -/
theorem c2_eval_range_height1_fails :
    rcprfNew keyW 1 = some ⟨⟨keyW, ⟨0, 0⟩, 1, 1⟩⟩ ∧
    (⟨⟨keyW, ⟨0, 0⟩, 1, 1⟩⟩ : RCPrf).root.range.containsRange ⟨0, 0⟩ =
      true ∧
    (⟨0, 0⟩ : RCPrfRange).width = ([16] : List Nat).length ∧
    rcprfEvalRange streamW blakeW ⟨⟨keyW, ⟨0, 0⟩, 1, 1⟩⟩ ⟨0, 0⟩ [16] =
      none ∧
    (rcprfEval streamW blakeW ⟨⟨keyW, ⟨0, 0⟩, 1, 1⟩⟩ 0 16).isSome = true :=
  ⟨by decide, by decide, by decide, by decide, by decide⟩

/-- C3: code bug. For the height-3 tree constrained on its full range
`[0, 3]` (a 4-leaf domain), four `next()` calls on the sequential iterator
emit the leaf indices `[0, 1, 2, 2]` instead of `[0, 1, 2, 3]`, and the
reversed iteration emits `[2, 2, 1, 0]` instead of `[3, 2, 1, 0]`: the
right child built by `split_node` uses the half-open range
`min + half_width..max`, dropping `max` from the right subtree's range. The
emitted values are nevertheless the correct PRF outputs of leaves
`0, 1, 2, 3` in order (the last pair carries leaf 3's value under index 2,
and evaluations at 2 and 3 differ). -/
theorem c3_iterator_emits_wrong_index :
    rcprfNew keyW 3 = some ⟨⟨keyW, ⟨0, 3⟩, 3, 3⟩⟩ ∧
    rcprfConstrain streamW ⟨⟨keyW, ⟨0, 3⟩, 3, 3⟩⟩ ⟨0, 3⟩ =
      some [.inner ⟨keyW, ⟨0, 3⟩, 3, 3⟩] ∧
    (iterTake streamW blakeW 4
        (intoValueIter [.inner ⟨keyW, ⟨0, 3⟩, 3, 3⟩] 1)).map Prod.fst =
      [0, 1, 2, 2] ∧
    (iterTakeBack streamW blakeW 4
        (intoValueIter [.inner ⟨keyW, ⟨0, 3⟩, 3, 3⟩] 1)).map Prod.fst =
      [2, 2, 1, 0] ∧
    (iterTake streamW blakeW 4
        (intoValueIter [.inner ⟨keyW, ⟨0, 3⟩, 3, 3⟩] 1)).map Prod.snd =
      ([0, 1, 2, 3] : List Nat).map
        (fun x =>
          (rcprfEval streamW blakeW ⟨⟨keyW, ⟨0, 3⟩, 3, 3⟩⟩ x 1).getD []) ∧
    (rcprfEval streamW blakeW ⟨⟨keyW, ⟨0, 3⟩, 3, 3⟩⟩ 2 1).getD [] ≠
      (rcprfEval streamW blakeW ⟨⟨keyW, ⟨0, 3⟩, 3, 3⟩⟩ 3 1).getD [] :=
  ⟨by decide, by decide, by decide, by decide, by decide, by decide⟩

/-- C4: code bug. Wrapping can never succeed:
`cleartext_serialization_length` counts only the content bytes, but
`serialize_cleartext` writes the 2 tag bytes and then the content into the
buffer of that length, so the final `write_all` always fails with
`WriteZero` — shown here for a `Prf` object (32-byte key) under every
wrapping key, nonce and cipher. -/
theorem c4_wrap_always_fails
    (blake : Key → Nat → List Nat → List Nat → List Nat → List Nat)
    (cpEnc : Key → List Nat → List Nat → List Nat × List Nat)
    (wrapKey : Key) (iv : List Nat) (prfKey : Key)
    (hk : prfKey.length = 32) :
    cryptoWrapperWrapPrf blake cpEnc wrapKey iv prfKey = none := by
  have h3 : serializeCleartextIntoSlice
      (cleartextSerializationLength prfSerializationContentByteSize) tagPrf
      (prfSerializeContent prfKey) = none := by
    unfold serializeCleartextIntoSlice
    rw [show sliceWriteAll
        (cleartextSerializationLength prfSerializationContentByteSize) 0
        (le16 tagPrf) = some 2 from rfl]
    show sliceWriteAll
      (cleartextSerializationLength prfSerializationContentByteSize) 2
      (prfSerializeContent prfKey) = none
    unfold sliceWriteAll prfSerializeContent key256SerializeContent
    rw [if_neg (show ¬2 + prfKey.length ≤
        cleartextSerializationLength prfSerializationContentByteSize by
      rw [hk]
      decide)]
  unfold cryptoWrapperWrapPrf cryptoWrapperWrap
  simp only [h3]

/-- Witness for C4 at a concrete key, nonce and cipher. -/
theorem c4_wrap_always_fails_witness :
    (keyW : List Nat).length = 32 ∧
    cryptoWrapperWrapPrf blakeW cpEncW keyW (List.replicate 16 0) keyW =
      none :=
  ⟨by decide, c4_wrap_always_fails blakeW cpEncW keyW (List.replicate 16 0)
    keyW (by decide)⟩

/-- C5: For every master key `k`, plaintext `m` and 16-byte nonce `iv`,
`aeadEncrypt` into a buffer of length `m.length + 32` succeeds and lays the
ciphertext out as `iv ‖ body ‖ tag` with `body` of the plaintext's length
and a 16-byte `tag` (expansion exactly 32 bytes), and `aeadDecrypt` of that
ciphertext with a plaintext buffer of length `m.length` succeeds and
recovers exactly `m`. The external `chacha20poly1305` detached cipher is
abstracted by `cpEnc`/`cpDec`, assumed length-preserving, 16-byte-tagged,
and round-tripping. -/
theorem c5_aead_roundtrip
    (blake : Key → Nat → List Nat → List Nat → List Nat → List Nat)
    (cpEnc : Key → List Nat → List Nat → List Nat × List Nat)
    (cpDec : Key → List Nat → List Nat → List Nat → Option (List Nat))
    (k : Key) (m iv : List Nat) (hiv : iv.length = 16)
    (hElen : ∀ ke n msg, (cpEnc ke n msg).1.length = msg.length)
    (hTlen : ∀ ke n msg, (cpEnc ke n msg).2.length = 16)
    (hRT : ∀ ke n msg,
      cpDec ke n (cpEnc ke n msg).1 (cpEnc ke n msg).2 = some msg) :
    ∃ body tag,
      aeadEncrypt blake cpEnc k m iv (List.replicate (m.length + 32) 0) =
        some (iv ++ (body ++ tag)) ∧
      body.length = m.length ∧ tag.length = 16 ∧
      (iv ++ (body ++ tag)).length = m.length + 32 ∧
      aeadDecrypt blake cpDec k (iv ++ (body ++ tag))
        (List.replicate m.length 0) = some m := by
  refine ⟨(cpEnc (prfFillBytes blake k iv 32) (iv.take 12) m).1,
    (cpEnc (prfFillBytes blake k iv 32) (iv.take 12) m).2, ?_, hElen _ _ _,
    hTlen _ _ _, ?_, ?_⟩
  · unfold aeadEncrypt
    rw [if_neg (show ¬(List.replicate (m.length + 32) (0 : Nat)).length <
        m.length + 32 by
      rw [List.length_replicate]
      omega)]
    dsimp only
    have hdrop : (List.replicate (m.length + 32) (0 : Nat)).drop
        (m.length + 32) = [] := by
      have h := List.drop_length (List.replicate (m.length + 32) (0 : Nat))
      rwa [List.length_replicate] at h
    rw [hdrop, List.append_nil, List.append_assoc]
  · simp only [List.length_append, hiv, hElen, hTlen]
    omega
  · have hbl : (cpEnc (prfFillBytes blake k iv 32) (iv.take 12) m).1.length =
        m.length := hElen _ _ _
    have htl : (cpEnc (prfFillBytes blake k iv 32) (iv.take 12) m).2.length =
        16 := hTlen _ _ _
    have hctlen : (iv ++
        ((cpEnc (prfFillBytes blake k iv 32) (iv.take 12) m).1 ++
          (cpEnc (prfFillBytes blake k iv 32) (iv.take 12) m).2)).length =
        m.length + 32 := by
      simp only [List.length_append]
      omega
    unfold aeadDecrypt
    dsimp only
    rw [hctlen, List.length_replicate]
    rw [if_neg (show ¬m.length + 32 < 32 by omega)]
    rw [if_neg (show ¬m.length + 32 > m.length + 32 by omega)]
    rw [List.take_left' hiv]
    rw [show (iv ++
        ((cpEnc (prfFillBytes blake k iv 32) (iv.take 12) m).1 ++
          (cpEnc (prfFillBytes blake k iv 32) (iv.take 12) m).2)).drop
        (m.length + 32 - 16) =
        (cpEnc (prfFillBytes blake k iv 32) (iv.take 12) m).2 from by
      rw [← List.append_assoc]
      rw [show m.length + 32 - 16 =
        (iv ++ (cpEnc (prfFillBytes blake k iv 32) (iv.take 12) m).1).length
        from by
          rw [List.length_append]
          omega]
      exact List.drop_left _ _]
    rw [show ((iv ++
        ((cpEnc (prfFillBytes blake k iv 32) (iv.take 12) m).1 ++
          (cpEnc (prfFillBytes blake k iv 32) (iv.take 12) m).2)).drop
        16).take (m.length + 32 - 32) =
        (cpEnc (prfFillBytes blake k iv 32) (iv.take 12) m).1 from by
      rw [show (iv ++
          ((cpEnc (prfFillBytes blake k iv 32) (iv.take 12) m).1 ++
            (cpEnc (prfFillBytes blake k iv 32) (iv.take 12) m).2)).drop 16 =
          (cpEnc (prfFillBytes blake k iv 32) (iv.take 12) m).1 ++
            (cpEnc (prfFillBytes blake k iv 32) (iv.take 12) m).2 from
        List.drop_left' hiv]
      rw [show m.length + 32 - 32 =
        (cpEnc (prfFillBytes blake k iv 32) (iv.take 12) m).1.length from by
          omega]
      exact List.take_left _ _]
    have hdrop : (List.replicate m.length (0 : Nat)).drop (m.length + 32 - 32)
        = [] := by
      rw [show m.length + 32 - 32 = m.length by omega]
      have h := List.drop_length (List.replicate m.length (0 : Nat))
      rwa [List.length_replicate] at h
    rw [hdrop]
    rw [hRT (prfFillBytes blake k iv 32) (iv.take 12) m]
    simp

/-- Witness for C5 with the identity-body, constant-tag cipher stand-ins,
a 3-byte message and the all-sevens nonce. -/
theorem c5_aead_roundtrip_witness :
    ((List.replicate 16 7 : List Nat).length = 16 ∧
      (∀ ke n msg, (cpEncW ke n msg).1.length = msg.length) ∧
      (∀ ke n msg, (cpEncW ke n msg).2.length = 16) ∧
      (∀ ke n msg,
        cpDecW ke n (cpEncW ke n msg).1 (cpEncW ke n msg).2 = some msg)) ∧
    (∃ body tag,
      aeadEncrypt blakeW cpEncW keyW [1, 2, 3] (List.replicate 16 7)
          (List.replicate (([1, 2, 3] : List Nat).length + 32) 0) =
        some (List.replicate 16 7 ++ (body ++ tag)) ∧
      body.length = ([1, 2, 3] : List Nat).length ∧ tag.length = 16 ∧
      (List.replicate 16 7 ++ (body ++ tag)).length =
        ([1, 2, 3] : List Nat).length + 32 ∧
      aeadDecrypt blakeW cpDecW keyW (List.replicate 16 7 ++ (body ++ tag))
        (List.replicate ([1, 2, 3] : List Nat).length 0) = some [1, 2, 3]) :=
  ⟨⟨by decide, fun _ _ _ => rfl, fun _ _ _ => rfl, fun _ _ _ => rfl⟩,
    c5_aead_roundtrip blakeW cpEncW cpDecW keyW [1, 2, 3]
      (List.replicate 16 7) (by decide) (fun _ _ _ => rfl)
      (fun _ _ _ => rfl) (fun _ _ _ => rfl)⟩

/-- C6: at tree height 65 the unconstrained RC-PRF's range is
`[0, 2^64 - 1]`; constraining on the singleton `[2^63, 2^63]` succeeds and
produces exactly one element, whose evaluation at `2^63` returns the same
bytes as the unconstrained evaluation there (all widths staying below
`2^64` in the Nat embedding of the `u64` arithmetic). -/
theorem c6_height65_edge (stream : Key → Nat → Nat)
    (blake : Key → Nat → List Nat → List Nat → List Nat → List Nat)
    (k : Key) (L : Nat) :
    ∃ t, rcprfNew k 65 = some t ∧
      t.root.range = ⟨0, 2 ^ 64 - 1⟩ ∧
      ∃ el, rcprfConstrain stream t ⟨2 ^ 63, 2 ^ 63⟩ = some [el] ∧
        crcprfRange [el] = some ⟨2 ^ 63, 2 ^ 63⟩ ∧
        crcprfEval stream blake [el] (2 ^ 63) L =
          rcprfEval stream blake t (2 ^ 63) L ∧
        (crcprfEval stream blake [el] (2 ^ 63) L).isSome := by
  have hml : maxLeafIndex 65 = 2 ^ 64 - 1 := rfl
  obtain ⟨els, hsome, hinv, heval⟩ :=
    innerUncheckedConstrain_spec stream 65 k 0 (2 ^ 64 - 1) 65 (by omega)
      (le_refl 65) (le_refl 65) (dvd_zero _)
      (by norm_num) (by norm_num) (2 ^ 63) (2 ^ 63) (by positivity)
      (le_refl _) (by norm_num)
  obtain ⟨el, rfl⟩ := elemSetInv_width_one hinv
  have hclx : (⟨2 ^ 63, 2 ^ 63⟩ : RCPrfRange).containsLeaf (2 ^ 63) =
      true := by
    simp [RCPrfRange.containsLeaf]
  have hce : crcprfEval stream blake [el] (2 ^ 63) L =
      some (innerUncheckedEval stream blake
        ⟨k, ⟨0, 2 ^ 64 - 1⟩, 65, 65⟩ (2 ^ 63) L) := by
    unfold crcprfEval
    simp only [crcprfRange_of_inv hinv]
    rw [if_pos hclx]
    exact heval blake (2 ^ 63) L (le_refl _) (le_refl _)
  refine ⟨⟨⟨k, ⟨0, maxLeafIndex 65⟩, 65, 65⟩⟩, by rfl, by rw [hml], el, ?_,
    crcprfRange_of_inv hinv, ?_, ?_⟩
  · unfold rcprfConstrain
    rw [if_neg (show ¬¬(⟨0, maxLeafIndex 65⟩ : RCPrfRange).containsRange
        ⟨2 ^ 63, 2 ^ 63⟩ = true by
      simp only [RCPrfRange.containsRange, Bool.and_eq_true,
        decide_eq_true_eq, not_not, hml]
      norm_num)]
    show innerUncheckedConstrain stream ⟨k, ⟨0, maxLeafIndex 65⟩, 65, 65⟩
      ⟨2 ^ 63, 2 ^ 63⟩ = some [el]
    rw [hml]
    exact hsome
  · rw [hce]
    unfold rcprfEval
    rw [if_pos (show (⟨0, maxLeafIndex 65⟩ : RCPrfRange).containsLeaf
        (2 ^ 63) = true by
      simp only [RCPrfRange.containsLeaf, Bool.and_eq_true,
        decide_eq_true_eq, hml]
      norm_num), hml]
  · rw [hce]
    rfl

/-- C7 (amended): `RCPrf::new` fails exactly when the requested height
exceeds `MAX_HEIGHT = 65`; every height `h ≤ 65` is accepted — including
`h = 0`, contrary to the claim (see the counterexample theorem). -/
theorem c7_new_height_check (k : Key) (h : Nat) :
    (rcprfNew k h = none ↔ MAX_HEIGHT < h) ∧
    (h ≤ MAX_HEIGHT →
      rcprfNew k h = some ⟨⟨k, ⟨0, maxLeafIndex h⟩, h, h⟩⟩) := by
  by_cases hc : h > MAX_HEIGHT
  · constructor
    · unfold rcprfNew
      rw [if_pos hc]
      exact ⟨fun _ => hc, fun _ => rfl⟩
    · intro hle
      exact absurd hc (by omega)
  · constructor
    · unfold rcprfNew
      rw [if_neg hc]
      exact ⟨fun hcon => Option.noConfusion hcon, fun hlt => absurd hlt hc⟩
    · intro _
      unfold rcprfNew
      rw [if_neg hc]

/-- Witness for C7 at heights 66 and 3. -/
theorem c7_new_height_check_witness :
    ((rcprfNew keyW 66 = none ↔ MAX_HEIGHT < 66) ∧
      (66 ≤ MAX_HEIGHT →
        rcprfNew keyW 66 = some ⟨⟨keyW, ⟨0, maxLeafIndex 66⟩, 66, 66⟩⟩)) ∧
    ((rcprfNew keyW 3 = none ↔ MAX_HEIGHT < 3) ∧
      (3 ≤ MAX_HEIGHT →
        rcprfNew keyW 3 = some ⟨⟨keyW, ⟨0, maxLeafIndex 3⟩, 3, 3⟩⟩)) :=
  ⟨c7_new_height_check keyW 66, c7_new_height_check keyW 3⟩

/-- C7 counterexample: height 0 is accepted — `RCPrf::new(0)` returns a
tree (with the degenerate range `[0, 0]`) instead of the
`InvalidTreeHeight` error the claim requires. -/
theorem c7_height_zero_accepted :
    rcprfNew keyW 0 = some ⟨⟨keyW, ⟨0, 0⟩, 0, 0⟩⟩ ∧
    ¬rcprfNew keyW 0 = none := ⟨by decide, by decide⟩

/-- C8 (amended): the cleartext serialization of a constrained RC-PRF
inner element is the global tree height (1 byte), the subtree height
(1 byte), `range.min` (8 bytes little-endian), `range.max` (8 bytes
little-endian), then the raw 32-byte KDPRG key — 50 bytes in all, without
the 2-byte type tag 3 the claim inserts before the key (the source writes
the PRG with `serialize_content`, not the tagged `serialize_cleartext`). -/
theorem c8_inner_element_layout (e : InnerElt)
    (hk : e.prgKey.length = 32) :
    innerEltSerializeContent e =
      [e.rcprfHeight % 256] ++ [e.subtreeHeight % 256] ++
        le64 e.range.min ++ le64 e.range.max ++ e.prgKey ∧
    (innerEltSerializeContent e).length = 50 := by
  constructor
  · rfl
  · show ([e.rcprfHeight % 256] ++ [e.subtreeHeight % 256] ++
      le64 e.range.min ++ le64 e.range.max ++ e.prgKey).length = 50
    simp only [List.length_append, le64, List.length_cons, List.length_nil,
      hk]

/-- Witness for C8 at a concrete height-2 element with the zero key. -/
theorem c8_inner_element_layout_witness :
    (keyW : List Nat).length = 32 ∧
    (innerEltSerializeContent ⟨keyW, ⟨0, 1⟩, 2, 2⟩ =
        [2 % 256] ++ [2 % 256] ++ le64 0 ++ le64 1 ++ keyW ∧
      (innerEltSerializeContent ⟨keyW, ⟨0, 1⟩, 2, 2⟩).length = 50) :=
  ⟨by decide, c8_inner_element_layout ⟨keyW, ⟨0, 1⟩, 2, 2⟩ (by decide)⟩

/-- C8 counterexample: on a concrete inner element the source's
serialization differs from the claim's layout (the claimed layout inserts
the 2-byte tag 3 before the key and is 52 bytes long; the source emits 50
bytes). -/
theorem c8_serialization_layout_differs :
    innerEltSerializeContent ⟨keyW, ⟨0, 1⟩, 2, 2⟩ ≠
      innerEltClaimedLayout ⟨keyW, ⟨0, 1⟩, 2, 2⟩ ∧
    (innerEltSerializeContent ⟨keyW, ⟨0, 1⟩, 2, 2⟩).length = 50 ∧
    (innerEltClaimedLayout ⟨keyW, ⟨0, 1⟩, 2, 2⟩).length = 52 :=
  ⟨by decide, by decide, by decide⟩

/-- C9: the element-set invariant. First conjunct: every constrained
RC-PRF produced by a successful `constrain` on a freshly built tree
satisfies `ElemSetInv` over the constrained range (non-empty, exact cover,
contiguous — each element's `min` is the previous element's `max + 1`,
which orders the ranges by increasing minimum and makes them pairwise
disjoint — and all elements carry the tree height). Second conjunct: a
successful `merge` of two invariant-satisfying constrained RC-PRFs
satisfies the invariant over the joined range. -/
theorem c9_element_set_invariant :
    (∀ (stream : Key → Nat → Nat) (k : Key) (hH a b : Nat) (t : RCPrf)
      (els : List RCPrfElt),
      1 ≤ hH → hH ≤ 65 → a ≤ b → b ≤ maxLeafIndex hH →
      rcprfNew k hH = some t →
      rcprfConstrain stream t ⟨a, b⟩ = some els →
      ElemSetInv hH ⟨a, b⟩ els) ∧
    (∀ (hH : Nat) (r1 r2 : RCPrfRange) (els1 els2 els3 : List RCPrfElt),
      ElemSetInv hH r1 els1 → ElemSetInv hH r2 els2 →
      mergeCRCPrf els1 els2 = some els3 →
      ElemSetInv hH ⟨Min.min r1.min r2.min, Max.max r1.max r2.max⟩ els3) := by
  constructor
  · intro stream k hH a b t els h1 h65 hab hb hnew hcon
    have ht : t = ⟨⟨k, ⟨0, maxLeafIndex hH⟩, hH, hH⟩⟩ := by
      unfold rcprfNew MAX_HEIGHT at hnew
      rw [if_neg (by omega)] at hnew
      exact (Option.some.inj hnew).symm
    subst ht
    unfold rcprfConstrain at hcon
    rw [if_neg (show ¬¬(⟨0, maxLeafIndex hH⟩ : RCPrfRange).containsRange
        ⟨a, b⟩ = true by
      simp only [RCPrfRange.containsRange, Bool.and_eq_true,
        decide_eq_true_eq, not_not]
      exact ⟨Nat.zero_le a, hb⟩)] at hcon
    rcases Nat.lt_or_ge hH 2 with hcase | hcase
    · -- height 1: the only constrainable range is [0, 0], a root clone
      have hH1 : hH = 1 := by omega
      subst hH1
      have hml : maxLeafIndex 1 = 0 := rfl
      rw [hml] at hcon
      have hb0 : b = 0 := by
        have : b ≤ maxLeafIndex 1 := hb
        rw [hml] at this
        omega
      subst hb0
      have ha0 : a = 0 := by omega
      subst ha0
      rw [innerUncheckedConstrain_full stream k 0 0 1 1 (by omega)] at hcon
      rw [← Option.some.inj hcon]
      exact elemSetInv_singleton_inner k 0 0 1 1 (le_refl 0)
    · -- height at least 2: the constrain characterization
      have hml : maxLeafIndex hH = 2 ^ (hH - 1) - 1 :=
        maxLeafIndex_eq (by omega) h65
      have hp : 0 < (2 : Nat) ^ (hH - 1) := Nat.pos_pow_of_pos _ (by omega)
      have hle : (2 : Nat) ^ (hH - 1) ≤ 2 ^ 64 :=
        Nat.pow_le_pow_right (by omega) (by omega)
      have hb2 : b ≤ 2 ^ (hH - 1) - 1 := by rw [hml] at hb; exact hb
      obtain ⟨els2, hsome, hinv, _⟩ :=
        innerUncheckedConstrain_spec stream hH k 0 (2 ^ (hH - 1) - 1) hH
          hcase (le_refl hH) h65 (dvd_zero _) (by omega) (by omega) a b
          (Nat.zero_le a) hab hb2
      rw [hml] at hcon
      rw [hsome] at hcon
      rw [← Option.some.inj hcon]
      exact hinv
  · intro hH r1 r2 els1 els2 els3 h1 h2 hmerge
    have hr1 : r1.min ≤ r1.max := by
      obtain ⟨hne, hmin, hmax, _, _, hb⟩ := h1
      cases els1 with
      | nil => exact absurd rfl hne
      | cons e rest =>
        have := hb e (by simp)
        have hm : elemsMin (e :: rest) = e.range.min := rfl
        omega
    have hr2 : r2.min ≤ r2.max := by
      obtain ⟨hne, hmin, hmax, _, _, hb⟩ := h2
      cases els2 with
      | nil => exact absurd rfl hne
      | cons e rest =>
        have := hb e (by simp)
        have hm : elemsMin (e :: rest) = e.range.min := rfl
        omega
    unfold mergeCRCPrf at hmerge
    rw [if_neg (by simpa [List.isEmpty_iff] using h1.nonempty),
      if_neg (by simpa [List.isEmpty_iff] using h2.nonempty)] at hmerge
    rw [h1.max_eq, h1.min_eq, h2.max_eq, h2.min_eq] at hmerge
    by_cases hord : r1.max < r2.min
    · rw [if_pos hord] at hmerge
      by_cases hdiff : r2.min - r1.max = 1
      · rw [if_pos hdiff] at hmerge
        have hcons : r2.min = r1.max + 1 := by omega
        have hspec := mergeCRCPrf_spec h1 h2 hcons
        rw [← Option.some.inj hmerge]
        have hminmax : (⟨Min.min r1.min r2.min, Max.max r1.max r2.max⟩ :
            RCPrfRange) = ⟨r1.min, r2.max⟩ := by
          have hxy : Min.min r1.min r2.min = r1.min :=
            Nat.min_eq_left (by omega)
          have hxy2 : Max.max r1.max r2.max = r2.max :=
            Nat.max_eq_right (by omega)
          rw [hxy, hxy2]
        rw [hminmax]
        exact hspec.2
      · rw [if_neg hdiff] at hmerge
        exact Option.noConfusion hmerge
    · rw [if_neg hord] at hmerge
      by_cases hord2 : r1.min > r2.max
      · rw [if_pos hord2] at hmerge
        by_cases hdiff : r1.min - r2.max = 1
        · rw [if_pos hdiff] at hmerge
          have hcons : r1.min = r2.max + 1 := by omega
          have hspec := mergeCRCPrf_spec h2 h1 hcons
          rw [← Option.some.inj hmerge]
          have hminmax : (⟨Min.min r1.min r2.min, Max.max r1.max r2.max⟩ :
              RCPrfRange) = ⟨r2.min, r1.max⟩ := by
            have hxy : Min.min r1.min r2.min = r2.min :=
              Nat.min_eq_right (by omega)
            have hxy2 : Max.max r1.max r2.max = r1.max :=
              Nat.max_eq_left (by omega)
            rw [hxy, hxy2]
          rw [hminmax]
          exact hspec.2
        · rw [if_neg hdiff] at hmerge
          exact Option.noConfusion hmerge
      · rw [if_neg hord2] at hmerge
        exact Option.noConfusion hmerge

/-- Witness for C9: a height-2 full-range constrain, and the merge of two
adjacent single-leaf constrained RC-PRFs. -/
theorem c9_element_set_invariant_witness :
    ElemSetInv 2 ⟨0, 1⟩ [.inner ⟨keyW, ⟨0, 1⟩, 2, 2⟩] ∧
    ElemSetInv 2 ⟨Min.min 0 1, Max.max 0 1⟩
      [.leaf ⟨keyW, 0, 2⟩, .leaf ⟨keyW, 1, 2⟩] :=
  ⟨c9_element_set_invariant.1 streamW keyW 2 0 1 ⟨⟨keyW, ⟨0, 1⟩, 2, 2⟩⟩
      [.inner ⟨keyW, ⟨0, 1⟩, 2, 2⟩] (by decide) (by decide) (by decide)
      (by decide) (by decide) (by decide),
    c9_element_set_invariant.2 2 ⟨0, 0⟩ ⟨1, 1⟩ [.leaf ⟨keyW, 0, 2⟩]
      [.leaf ⟨keyW, 1, 2⟩] [.leaf ⟨keyW, 0, 2⟩, .leaf ⟨keyW, 1, 2⟩]
      (elemSetInv_singleton_leaf keyW 0 2) (elemSetInv_singleton_leaf keyW 1 2)
      (by decide)⟩

/-- C10: the PRG's fill functions first zeroize the output buffer and then
xor in the ChaCha20 keystream, so the bytes written depend only on the
key, the offset and the buffer length — two calls on buffers with
different prior contents but equal lengths produce identical output, and
that output is exactly the keystream slice. -/
theorem c10_prg_fill_ignores_prior_contents (stream : Key → Nat → Nat)
    (k : Key) (offset : Nat) (buf1 buf2 : List Nat)
    (hlen : buf1.length = buf2.length) :
    prgFillOffset stream k offset buf1 = prgFillOffset stream k offset buf2 ∧
    prgFill stream k buf1 = prgFill stream k buf2 ∧
    prgFillOffset stream k offset buf1 =
      (List.range buf1.length).map fun i => stream k (offset + i) := by
  refine ⟨?_, ?_, ?_⟩
  · unfold prgFillOffset
    rw [hlen]
  · unfold prgFill prgFillOffset
    rw [hlen]
  · unfold prgFillOffset
    refine List.map_congr_left ?_
    intro i _
    exact Nat.zero_xor _

/-- Witness for C10 on two 2-byte buffers with different contents. -/
theorem c10_prg_fill_ignores_prior_contents_witness :
    ([9, 9] : List Nat).length = ([0, 7] : List Nat).length ∧
    (prgFillOffset streamW keyW 5 [9, 9] =
        prgFillOffset streamW keyW 5 [0, 7] ∧
      prgFill streamW keyW [9, 9] = prgFill streamW keyW [0, 7] ∧
      prgFillOffset streamW keyW 5 [9, 9] =
        (List.range ([9, 9] : List Nat).length).map
          fun i => streamW keyW (5 + i)) :=
  ⟨by decide, c10_prg_fill_ignores_prior_contents streamW keyW 5 [9, 9]
    [0, 7] (by decide)⟩

end CryptoTk
